import Mathlib

/-!
Verification development for the lectara content-bookmarking service.

The definitions below are a shallow embedding of the Rust sources of the
service (crate `lectara-service`): URL canonicalization (`validation.rs`),
the ingestion handler (`routes/api/v1.rs` together with `models.rs` and
`repositories/content.rs`), the listing query, the error-to-status mapping
(`errors.rs`), and the request-lifecycle coordinator (`shutdown.rs`,
`main.rs`).  Rust `String`s are modelled as `List Char`, machine integers
as `Nat`/`Int`, fallible functions as `Except`/`Option`.
-/

set_option maxRecDepth 4000

/-- Rust strings are modelled as lists of characters. -/
abbrev Str := List Char

deriving instance DecidableEq for Except

namespace Lectara

/-! ## Generic string helpers (model Rust std string operations) -/

/-- Lexicographic strict order on strings, as used by Rust's `Ord for String`
(byte order; identical to codepoint order on the ASCII fragment involved). -/
def strLt : Str → Str → Bool
  | [], [] => false
  | [], _ :: _ => true
  | _ :: _, [] => false
  | a :: as_, b :: bs => if a < b then true else if b < a then false else strLt as_ bs

/-- Models Rust `str::starts_with` (pattern given first). -/
def startsWithStr : Str → Str → Bool
  | [], _ => true
  | _ :: _, [] => false
  | p :: ps, c :: cs => p = c && startsWithStr ps cs

/-- Models Rust `str::to_lowercase` on the ASCII fragment relevant to hosts. -/
def toLowerStr (s : Str) : Str := s.map Char.toLower

/-- Models Rust `s.trim().is_empty()`: every character is whitespace. -/
def isBlank (s : Str) : Bool := s.all Char.isWhitespace

/-- Models Rust `str::strip_suffix` with a single-character pattern. -/
def stripSuffixChar (s : Str) (c : Char) : Option Str :=
  if s.getLast? = some c then some s.dropLast else none

/-- Decimal digit character for `d < 10` (used to render ports). -/
def digitChar : Nat → Char
  | 0 => '0' | 1 => '1' | 2 => '2' | 3 => '3' | 4 => '4'
  | 5 => '5' | 6 => '6' | 7 => '7' | 8 => '8' | 9 => '9'
  | _ => '*'

/-- Numeric value of a decimal digit character. -/
def digitVal (c : Char) : Nat := c.toNat - 48

/-- Decimal rendering of a natural number (used for the `:{port}` part of
`Display for ValidatedUrl`). -/
def natToDigits (n : Nat) : Str :=
  if _h : n < 10 then [digitChar n]
  else natToDigits (n / 10) ++ [digitChar (n % 10)]
  decreasing_by exact Nat.div_lt_self (by omega) (by omega)

/-- Decimal parsing of a digit string (used to model port parsing in the
external `url` crate). -/
def digitsToNat (s : Str) : Nat := s.foldl (fun n c => 10 * n + digitVal c) 0

/-! ## URL canonicalizer (`validation.rs`) -/

/-- `validation.rs`: `enum ValidationError`. -/
inductive ValidationError where
  | emptyUrl
  | malformedUrl (s : Str)
  | missingHost
  | localAddress (h : Str)
  | unsupportedScheme (s : Str)
deriving DecidableEq, Repr

/-- `validation.rs`: `enum Scheme`. -/
inductive Scheme where
  | http
  | https
deriving DecidableEq, Repr

/-- `impl fmt::Display for Scheme`. -/
def Scheme.render : Scheme → Str
  | .http => "http".toList
  | .https => "https".toList

/-- Default port of a scheme (the `match` inside the port filter of
`ValidatedUrl::try_from`). -/
def Scheme.defaultPort : Scheme → Nat
  | .http => 80
  | .https => 443

/-- `validation.rs`: `struct ValidatedUrl`.  The `BTreeMap<String, String>`
of query parameters is modelled as an association list kept sorted by key
with strictly increasing keys. -/
structure ValidatedUrl where
  scheme : Scheme
  host : Str
  port : Option Nat
  path : Str
  query : Option (List (Str × Str))
deriving DecidableEq, Repr

/-- `BTreeMap::insert`: insert into a key-sorted association list,
overwriting the value when the key is already present. -/
def btreeInsert (k v : Str) : List (Str × Str) → List (Str × Str)
  | [] => [(k, v)]
  | (k', v') :: rest =>
    if strLt k k' then (k, v) :: (k', v') :: rest
    else if k = k' then (k, v) :: rest
    else (k', v') :: btreeInsert k v rest

/-- `BTreeMap::get`: first-match lookup in an association list. -/
def lookupA : List (Str × Str) → Str → Option Str
  | [], _ => none
  | (k', v') :: rest, k => if k = k' then some v' else lookupA rest k

/-- Percent-decoding with `+` as space, as performed by
`form_urlencoded` inside `Url::query_pairs` (external `url` crate).
Invalid escape sequences pass through unchanged. -/
def percentDecode : Str → Str
  | [] => []
  | '%' :: a :: b :: rest2 =>
    if isHexChar a && isHexChar b then
      Char.ofNat (16 * hexVal a + hexVal b) :: percentDecode rest2
    else '%' :: percentDecode (a :: b :: rest2)
  | c :: rest =>
    if c = '+' then ' ' :: percentDecode rest
    else c :: percentDecode rest
where
  isHexChar (c : Char) : Bool :=
    c.isDigit || ('a' ≤ c && c ≤ 'f') || ('A' ≤ c && c ≤ 'F')
  hexVal (c : Char) : Nat :=
    if c.isDigit then c.toNat - 48
    else if 'a' ≤ c && c ≤ 'f' then c.toNat - 87
    else c.toNat - 55

/-- Split a raw query string at `&` separators (part of `Url::query_pairs`). -/
def splitAmp : Str → List Str
  | [] => [[]]
  | c :: rest =>
    if c = '&' then [] :: splitAmp rest
    else
      match splitAmp rest with
      | [] => [[c]]
      | h :: t => (c :: h) :: t

/-- Split one `k=v` piece at the first `=` (part of `Url::query_pairs`);
returns `none` for the value when there is no `=`. -/
def splitEq : Str → Str × Option Str
  | [] => ([], none)
  | c :: rest =>
    if c = '=' then ([], some rest)
    else
      let (k, v) := splitEq rest
      (c :: k, v)

/-- Models `Url::query_pairs` of the external `url` crate: split the raw
query on `&`, skip empty pieces, split each piece at the first `=`
(missing value decodes to the empty string), percent-decode both sides. -/
def queryPairs (q : Str) : List (Str × Str) :=
  (splitAmp q).filterMap fun piece =>
    if piece = [] then none
    else
      let (k, v) := splitEq piece
      some (percentDecode k, percentDecode (v.getD []))

/-- The fields of a parsed `url::Url` value that `ValidatedUrl::try_from`
reads: `scheme()`, `host_str()`, `port()`, `path()`, `query()`. -/
structure RawUrl where
  scheme : Str
  host : Option Str
  port : Option Nat
  path : Str
  query : Option Str
deriving DecidableEq, Repr

/-- `validation.rs`: `impl TryFrom<Url> for ValidatedUrl` (lines 87–159),
step by step: scheme gate, host presence, host lowercasing and local-address
rejection, default-port elision, path normalization (strip exactly one
trailing `/` except for the root), query folding into a `BTreeMap`. -/
def ValidatedUrl.tryFrom (url : RawUrl) : Except ValidationError ValidatedUrl :=
  let schemeE : Except ValidationError Scheme :=
    if url.scheme = "http".toList then .ok .http
    else if url.scheme = "https".toList then .ok .https
    else .error (.unsupportedScheme url.scheme)
  match schemeE with
  | .error e => .error e
  | .ok scheme =>
    match url.host with
    | none => .error .missingHost
    | some host =>
      if host = [] then .error .missingHost
      else
        let host := toLowerStr host
        if host = "localhost".toList
            || startsWithStr "127.".toList host
            || startsWithStr "192.168.".toList host
            || startsWithStr "10.".toList host then
          .error (.localAddress host)
        else
          let port := url.port.filter fun p => p ≠ scheme.defaultPort
          let path :=
            if url.path = [] || url.path = "/".toList then "/".toList
            else
              match stripSuffixChar url.path '/' with
              | some stripped => stripped
              | none => url.path
          let query :=
            match url.query with
            | some q =>
              let params := (queryPairs q).foldl (fun m kv => btreeInsert kv.1 kv.2 m) []
              if params = [] then none else some params
            | none => none
          .ok { scheme, host, port, path, query }

/-- The query part of `impl fmt::Display for ValidatedUrl` (lines 65–81):
join `k=v` pieces with `&`, rendering a pair with empty value as the bare
key. -/
def renderPairs : List (Str × Str) → Str
  | [] => []
  | [(k, v)] => if v = [] then k else k ++ '=' :: v
  | (k, v) :: rest => (if v = [] then k else k ++ '=' :: v) ++ '&' :: renderPairs rest

/-- `impl fmt::Display for ValidatedUrl` (lines 55–85):
`scheme://host[:port]path[?query]`, the query omitted when absent or empty. -/
def ValidatedUrl.render (v : ValidatedUrl) : Str :=
  v.scheme.render ++ "://".toList ++ v.host
    ++ (match v.port with
        | some p => ':' :: natToDigits p
        | none => [])
    ++ v.path
    ++ (match v.query with
        | some ps => if ps = [] then [] else '?' :: renderPairs ps
        | none => [])

/-- Split a string at its first `:`; `none` if there is no colon. -/
def splitColon : Str → Option (Str × Str)
  | [] => none
  | c :: rest =>
    if c = ':' then some ([], rest)
    else (splitColon rest).map fun p => (c :: p.1, p.2)

/-- Keep only what follows the last `@` (userinfo separator) of an
authority component. -/
def afterLastAt (s : Str) : Str := (s.reverse.takeWhile (fun c => c ≠ '@')).reverse

/-- Character may appear in an authority component: stops at `/`, `?`, `#`. -/
def authChar (c : Char) : Bool := !(c = '/' || c = '?' || c = '#')

/-- Character may appear in a path component: stops at `?`, `#`. -/
def pathChar (c : Char) : Bool := !(c = '?' || c = '#')

/-- Path of the part following the authority. -/
def pathOf (r : Str) : Str := r.takeWhile pathChar

/-- Raw query string of the part following the authority: the text between
`?` and `#` (or the end), `none` when there is no `?`. -/
def hashStop (c : Char) : Bool := !(c = '#')

def queryOf (r : Str) : Option Str :=
  match r.dropWhile pathChar with
  | '?' :: q => some (q.takeWhile hashStop)
  | _ => none

/-- Scheme characters accepted by the parser model. -/
def schemeChar (c : Char) : Bool := c.isAlpha || c.isDigit || c = '+' || c = '-' || c = '.'

/-- The authority/path/query stage of the parser model: everything after
`scheme://`. -/
def parseAuthority (scheme : Str) (rest2 : Str) : Option RawUrl :=
  let auth := rest2.takeWhile authChar
  let rest3 := rest2.dropWhile authChar
  let hostPort := afterLastAt auth
  match splitColon hostPort with
  | some (h, pstr) =>
    if h = [] then none
    else if pstr = [] then
      some ⟨scheme, some h, none, pathOf rest3, queryOf rest3⟩
    else if pstr.all Char.isDigit then
      let p := digitsToNat pstr
      if p < 65536 then some ⟨scheme, some h, some p, pathOf rest3, queryOf rest3⟩
      else none
    else none
  | none =>
    if hostPort = [] then none
    else some ⟨scheme, some hostPort, none, pathOf rest3, queryOf rest3⟩

/-- Models `Url::parse` of the external `url` crate on the fragment of URL
syntax this service exercises: `scheme://[userinfo@]host[:port]path?query#frag`
for scheme-with-authority URLs.  The host must be non-empty, the port must be
numeric and below 65536, the fragment is discarded (the service never reads
it).  A URL whose scheme is not followed by `//` is parsed to scheme
granularity only (`ValidatedUrl::try_from` rejects every non-http(s) scheme
before looking at anything else).  Not modelled: percent-encoding applied by
the crate inside path components, dot-segment removal, IPv6 hosts, and host
punycoding — none of which the claims below exercise. -/
def parseUrl (s : Str) : Option RawUrl :=
  match splitColon s with
  | none => none
  | some (schemeRaw, rest) =>
    if schemeRaw = [] then none
    else if !schemeRaw.all schemeChar then none
    else
      match rest with
      | '/' :: '/' :: rest2 => parseAuthority (toLowerStr schemeRaw) rest2
      | _ => some ⟨toLowerStr schemeRaw, none, none, [], none⟩

/-- `validation.rs`: `validate_url` (lines 161–169): reject the empty
string, parse, then run `ValidatedUrl::try_from`. -/
def validate_url (s : Str) : Except ValidationError ValidatedUrl :=
  if s = [] then .error .emptyUrl
  else
    match parseUrl s with
    | none => .error (.malformedUrl s)
    | some u => ValidatedUrl.tryFrom u

/-- `validation.rs`: `normalize_url` (lines 171–174): validate and render. -/
def normalize_url (s : Str) : Except ValidationError Str :=
  (validate_url s).map ValidatedUrl.render

/-! ## Data model and store (`models.rs`, `repositories/content.rs`) -/

/-- `models.rs`: `struct ContentItem`, the persisted row.  `created_at`
(a `NaiveDateTime`) is modelled as an integer timestamp, `id` as `Int`
(SQLite `INTEGER`). -/
structure ContentItem where
  id : Int
  url : Str
  title : Option Str
  author : Option Str
  created_at : Int
  body : Option Str
deriving DecidableEq, Repr

/-- `models.rs`: `struct NewContentItem`. -/
structure NewContentItem where
  url : Str
  title : Option Str
  author : Option Str
  body : Option Str
deriving DecidableEq, Repr

/-- `models.rs`: `NewContentItem::new` — normalize the URL, keep the three
optional fields exactly as given. -/
def NewContentItem.new (url : Str) (title author body : Option Str) :
    Except ValidationError NewContentItem :=
  (normalize_url url).map fun normalized =>
    { url := normalized, title, author, body }

/-- `errors.rs`: `enum ApiError`.  The single `diesel::result::Error`
payload is reduced to whether it is the unique-constraint violation on the
canonical-url column; the `BadRequest` and `NotFound` variants are the ones
`routes/api/v1.rs` constructs. -/
inductive ApiError where
  | validationError (e : ValidationError)
  | databaseError (uniqueViolation : Bool)
  | duplicateUrlDifferentMetadata
  | internalError
  | notFound
  | badRequest (msg : Str)
deriving DecidableEq, Repr

/-- `errors.rs`: the status code chosen by `impl IntoResponse for ApiError`
(lines 25–47).  The `ValidationError`, `DuplicateUrlDifferentMetadata`,
`DatabaseError` and `InternalError` arms are translated from the source;
the source of the `NotFound`/`BadRequest` arms is not under `src/`, so they
are modelled from the spec (§6: 404 for absent item, 400 for malformed
parameters). -/
def ApiError.statusOf : ApiError → Nat
  | .validationError _ => 400
  | .duplicateUrlDifferentMetadata => 409
  | .databaseError _ => 500
  | .internalError => 500
  | .notFound => 404
  | .badRequest _ => 400

/-- The SQLite store owned by the collaborator persistence layer: the rows,
the next autoincrement id, and the insertion timestamp the store would
assign (`created_at` default). -/
structure Store where
  items : List ContentItem
  nextId : Int
  now : Int
deriving DecidableEq, Repr

/-- `repositories/content.rs`: `find_by_url` — first row whose `url` column
equals the argument. -/
def findByUrl (items : List ContentItem) (url : Str) : Option ContentItem :=
  items.find? fun item => item.url = url

/-- `repositories/content.rs`: `create` — `INSERT .. RETURNING *`.  The
unique constraint on the `url` column (enforced by the collaborator store,
spec §6) rejects the insert when a row with the same canonical URL already
exists; the repository propagates that as a database error. -/
def createItem (s : Store) (nc : NewContentItem) :
    Except ApiError (ContentItem × Store) :=
  if s.items.any fun item => item.url = nc.url then
    .error (.databaseError true)
  else
    let item : ContentItem :=
      { id := s.nextId, url := nc.url, title := nc.title, author := nc.author
        created_at := s.now, body := nc.body }
    .ok (item, { items := s.items ++ [item], nextId := s.nextId + 1, now := s.now })

/-! ## Ingestion handler (`routes/api/v1.rs::add_content`) -/

/-- The JSON body of `POST /api/v1/content` (`struct AddContentRequest`). -/
structure AddContentRequest where
  url : Str
  title : Option Str
  author : Option Str
  body : Option Str
deriving DecidableEq, Repr

/-- The `200` response of `add_content` (`struct ContentResponse`). -/
structure ContentResponse where
  id : Int
deriving DecidableEq, Repr

/-- `routes/api/v1.rs::add_content` (lines 56–124) with the store state at
each of the two repository calls made explicit: the lookup reads
`sLookup`, the insert writes `sInsert`.  This exposes the interleaving
point between the two awaited repository calls; a concurrent request may
commit between them, in which case `sInsert ≠ sLookup`.

Steps, in source order: filter an empty/whitespace-only `body` to `None`
(only `body` — line 64), `NewContentItem::new` (canonicalize the URL),
`find_by_url`, then either the field-by-field comparison of `title`,
`author`, `body` against the existing row (any difference →
`DuplicateUrlDifferentMetadata`, all equal → existing id), or `create`. -/
def addContentRaced (payload : AddContentRequest) (sLookup sInsert : Store) :
    Except ApiError ContentResponse × Store :=
  let body := payload.body.filter fun b => !isBlank b
  match NewContentItem.new payload.url payload.title payload.author body with
  | .error e => (.error (.validationError e), sInsert)
  | .ok newContent =>
    match findByUrl sLookup.items newContent.url with
    | some existing =>
      if existing.title ≠ newContent.title then
        (.error .duplicateUrlDifferentMetadata, sInsert)
      else if existing.author ≠ newContent.author then
        (.error .duplicateUrlDifferentMetadata, sInsert)
      else if existing.body ≠ newContent.body then
        (.error .duplicateUrlDifferentMetadata, sInsert)
      else
        (.ok { id := existing.id }, sInsert)
    | none =>
      match createItem sInsert newContent with
      | .ok (item, s') => (.ok { id := item.id }, s')
      | .error e => (.error e, sInsert)

/-- `add_content` in the absence of concurrent writers: both repository
calls see the same store. -/
def addContent (payload : AddContentRequest) (s : Store) :
    Except ApiError ContentResponse × Store :=
  addContentRaced payload s s

/-! ## Listing (`repositories/content.rs::list`, `routes/api/v1.rs::list_content`) -/

/-- `repositories/traits.rs`: `struct ListContentParams` (`since`/`until`
already parsed to timestamps). -/
structure ListContentParams where
  limit : Option Nat
  offset : Option Nat
  since : Option Int
  untilT : Option Int
deriving DecidableEq, Repr

/-- `repositories/traits.rs`: `struct ListContentResult`. -/
structure ListContentResult where
  items : List ContentItem
  total : Nat
deriving DecidableEq, Repr

/-- The `WHERE` clause built in `list`: `created_at >= since` and
`created_at <= until`, each only when supplied (inclusive bounds). -/
def matchesBounds (params : ListContentParams) (item : ContentItem) : Bool :=
  (match params.since with
   | some t => decide (t ≤ item.created_at)
   | none => true)
  && (match params.untilT with
      | some t => decide (item.created_at ≤ t)
      | none => true)

/-- `ORDER BY created_at DESC, id DESC`: `a` may precede `b`. -/
def listOrder (a b : ContentItem) : Prop :=
  b.created_at < a.created_at ∨ (b.created_at = a.created_at ∧ b.id ≤ a.id)

instance : DecidableRel listOrder := fun a b => by
  unfold listOrder; infer_instance

instance : IsTotal ContentItem listOrder :=
  ⟨fun a b => by unfold listOrder; omega⟩

instance : IsTrans ContentItem listOrder :=
  ⟨fun a b c hab hbc => by unfold listOrder at *; omega⟩

/-- `repositories/content.rs::list` (lines 50–82) under SQL semantics:
filter by the bounds, `ORDER BY created_at DESC, id DESC`, skip `OFFSET`
(0 when absent), take `LIMIT` rows where the effective limit is
`limit.unwrap_or(50).min(1000)`; `total` comes from a second `COUNT`
query with the same filter and no pagination. -/
def listContent (params : ListContentParams) (items : List ContentItem) :
    ListContentResult :=
  let filtered := items.filter (matchesBounds params)
  let sorted := List.insertionSort listOrder filtered
  let eLimit := min (params.limit.getD 50) 1000
  let rows := (sorted.drop (params.offset.getD 0)).take eLimit
  { items := rows, total := filtered.length }

/-- The query parameters of `GET /api/v1/content`
(`struct ListContentQuery`), with `since`/`until` already parsed from their
RFC3339 strings (the string parsing is done by the external `chrono`
crate). -/
structure ListContentQuery where
  limit : Option Nat
  offset : Option Nat
  since : Option Int
  untilT : Option Int
deriving DecidableEq, Repr

/-- One element of the `items` array of the listing response
(`struct ContentSummary`: no `body`). -/
structure ContentSummary where
  id : Int
  url : Str
  title : Option Str
  author : Option Str
  created_at : Int
deriving DecidableEq, Repr

/-- The `200` response of `list_content` (`struct ListContentResponse`). -/
structure ListContentResponse where
  items : List ContentSummary
  total : Nat
  limit : Nat
deriving DecidableEq, Repr

/-- `routes/api/v1.rs::list_content` (lines 127–206): reject a supplied
`limit` of 0 as `BadRequest`, run the repository query, project each row to
a summary, and report `limit` as `query.limit.unwrap_or(50)` — the
supplied value without the repository's 1000 clamp. -/
def list_content (query : ListContentQuery) (items : List ContentItem) :
    Except ApiError ListContentResponse :=
  if query.limit = some 0 then
    .error (.badRequest "Limit must be greater than 0".toList)
  else
    let params : ListContentParams :=
      { limit := query.limit, offset := query.offset
        since := query.since, untilT := query.untilT }
    let result := listContent params items
    .ok { items := result.items.map fun item =>
            { id := item.id, url := item.url, title := item.title
              author := item.author, created_at := item.created_at }
          total := result.total
          limit := query.limit.getD 50 }

/-! ## Request lifecycle coordinator (`shutdown.rs`) -/

/-- Observable events at the coordinator: a request arrives at
`GracefulShutdownService::call`; an accepted request's future is polled to
completion (`GracefulShutdownFuture::poll` returns `Ready`); an accepted
request's future is dropped before completing (caller cancellation); the
shutdown signal arrives (`ShutdownState::start_shutdown`).  The `call`
path's flag check and increment are modelled as one atomic step (they are
adjacent `SeqCst` operations; the step linearizes at the flag load). -/
inductive ReqEvent where
  | arrive (r : Nat)
  | pollReady (r : Nat)
  | dropFut (r : Nat)
  | signalShutdown
deriving DecidableEq, Repr

/-- The coordinator state: `shuttingDown` and `inFlight` are the two fields
of `ShutdownState`; the bookkeeping lists record each request's fate so
that well-formedness of traces and the counter invariant can be stated
(`pending` = accepted and future not yet settled, `droppedR` = accepted and
future dropped before completion, `finishedR` = accepted and polled to
completion, `rejectedR` = turned away with 503, `arrivedR` = every id
seen). -/
structure CoordState where
  shuttingDown : Bool
  inFlight : Nat
  pending : List Nat
  droppedR : List Nat
  finishedR : List Nat
  rejectedR : List Nat
  arrivedR : List Nat
deriving DecidableEq, Repr

/-- The initial `ShutdownState::new()`: not shutting down, zero in flight. -/
def initCoord : CoordState :=
  { shuttingDown := false, inFlight := 0, pending := [], droppedR := []
    finishedR := [], rejectedR := [], arrivedR := [] }

/-- One step of the coordinator, from `shutdown.rs`.  `none` marks an
ill-formed event (reusing a request id, or settling a future that is not
pending).

* `arrive` (`GracefulShutdownService::call`, lines 93–116): when
  `shuttingDown`, answer 503 immediately and do not touch the counter;
  otherwise `fetch_add(1)` and hand off to the inner future.
* `pollReady` (`GracefulShutdownFuture::poll`, lines 140–159): when the
  inner future completes, `fetch_sub(1)`.
* `dropFut`: the wrapper future is dropped before completing.
  `GracefulShutdownFuture` has no `Drop` implementation, so the state is
  not touched — in particular the counter is NOT decremented.
* `signalShutdown` (`ShutdownState::start_shutdown`, lines 35–37): set the
  flag. -/
def coordStep (s : CoordState) : ReqEvent → Option CoordState
  | .arrive r =>
    if r ∈ s.arrivedR then none
    else if s.shuttingDown then
      some { s with arrivedR := r :: s.arrivedR, rejectedR := r :: s.rejectedR }
    else
      some { s with arrivedR := r :: s.arrivedR, pending := r :: s.pending
                    inFlight := s.inFlight + 1 }
  | .pollReady r =>
    if r ∈ s.pending then
      some { s with pending := s.pending.erase r, finishedR := r :: s.finishedR
                    inFlight := s.inFlight - 1 }
    else none
  | .dropFut r =>
    if r ∈ s.pending then
      some { s with pending := s.pending.erase r, droppedR := r :: s.droppedR }
    else none
  | .signalShutdown => some { s with shuttingDown := true }

/-- Run a trace of events from the initial state; `none` if any step is
ill-formed. -/
def coordRun (tr : List ReqEvent) : Option CoordState :=
  tr.foldl (fun acc e => acc.bind fun s => coordStep s e) (some initCoord)

/-- Modelled from the spec: the awaitable `drained` condition behind
`ShutdownState::completed()`.  `completed` is awaited in `main.rs`
(lines 90–94) but its definition is not under `src/`; spec §4.4 defines the
`Drained` state as `shuttingDown = true ∧ inFlight = 0`. -/
def drained (s : CoordState) : Prop := s.shuttingDown = true ∧ s.inFlight = 0

instance (s : CoordState) : Decidable (drained s) := by
  unfold drained; infer_instance

/-! ## Helper lemmas: the string order -/

theorem strLt_irrefl : ∀ s : Str, strLt s s = false
  | [] => rfl
  | _ :: cs => by simp [strLt, strLt_irrefl cs]

theorem strLt_asymm {a : Str} : ∀ {b : Str}, strLt a b = true → strLt b a = false := by
  induction a with
  | nil => intro b h; cases b <;> simp_all [strLt]
  | cons x xs ih =>
    intro b h
    cases b with
    | nil => simp [strLt] at h
    | cons y ys =>
      simp only [strLt] at h ⊢
      rcases lt_trichotomy x y with hxy | hxy | hxy
      · simp [hxy, not_lt.mpr hxy.le]
      · subst hxy
        simp only [lt_self_iff_false, if_false] at h ⊢
        exact ih h
      · simp [hxy, not_lt.mpr hxy.le] at h

theorem strLt_trans : ∀ {a b c : Str},
    strLt a b = true → strLt b c = true → strLt a c = true
  | [], b, [] => by cases b <;> simp [strLt]
  | [], _, _ :: _ => by simp [strLt]
  | _ :: _, [], _ => by simp [strLt]
  | _ :: _, _ :: _, [] => by simp [strLt]
  | a :: as_, b :: bs, c :: cs => by
    simp only [strLt]
    rcases lt_trichotomy a b with hab | hab | hab <;>
      rcases lt_trichotomy b c with hbc | hbc | hbc
    · simp [hab.trans hbc, hab, hbc]
    · subst hbc; simp [hab]
    · simp [hab, hbc, not_lt.mpr hbc.le]
    · subst hab; simp [hbc]
    · subst hab; subst hbc
      simp only [lt_self_iff_false, if_false]
      exact strLt_trans
    · subst hab; simp [hbc, not_lt.mpr hbc.le]
    · simp [hab, not_lt.mpr hab.le]
    · subst hbc; simp [hab, not_lt.mpr hab.le]
    · simp [hab, hbc, not_lt.mpr hab.le, not_lt.mpr hbc.le]

theorem strLt_ne {a b : Str} (h : strLt a b = true) : a ≠ b := by
  rintro rfl
  rw [strLt_irrefl] at h
  exact Bool.false_ne_true h

/-! ## Helper lemmas: the query-parameter map -/

/-- Keys of an association list. -/
def keysOf (m : List (Str × Str)) : List Str := m.map Prod.fst

/-- `BTreeMap::insert` then `get`: the freshly inserted key reads back its
value, every other key is unaffected.  Holds for arbitrary association
lists. -/
theorem lookupA_btreeInsert (k v q : Str) :
    ∀ m, lookupA (btreeInsert k v m) q = if q = k then some v else lookupA m q
  | [] => by by_cases h : q = k <;> simp [btreeInsert, lookupA, h]
  | (k', v') :: rest => by
    simp only [btreeInsert]
    by_cases hlt : strLt k k' = true
    · by_cases h : q = k <;> simp [hlt, lookupA, h]
    · by_cases heq : k = k'
      · subst heq
        by_cases h : q = k <;> simp [hlt, lookupA, h]
      · by_cases h : q = k'
        · subst h
          have : q ≠ k := fun hh => heq hh.symm
          simp [hlt, heq, lookupA, this]
        · simp [hlt, heq, lookupA, h, lookupA_btreeInsert k v q rest]

/-- Inserting a key strictly above every key of a sorted list appends it. -/
theorem btreeInsert_append (k v : Str) :
    ∀ m, (∀ k' ∈ keysOf m, strLt k' k = true) →
      btreeInsert k v m = m ++ [(k, v)]
  | [], _ => rfl
  | (k', v') :: rest, h => by
    have hk' : strLt k' k = true := h k' (by simp [keysOf])
    have h1 : strLt k k' = false := strLt_asymm hk'
    have h2 : k ≠ k' := fun hh => (strLt_ne hk') hh.symm
    simp only [btreeInsert, h1, Bool.false_eq_true, if_false, h2, if_false,
      List.cons_append, List.cons.injEq, true_and]
    refine btreeInsert_append k v rest fun q hq => h q ?_
    show q ∈ k' :: keysOf rest
    exact List.mem_cons_of_mem _ hq

/-- Folding a key-strictly-ascending pair list into an empty `BTreeMap`
returns the list unchanged. -/
theorem foldl_btreeInsert_sorted :
    ∀ (ps acc : List (Str × Str)),
      (keysOf acc ++ keysOf ps).Pairwise (fun a b => strLt a b = true) →
      ps.foldl (fun m kv => btreeInsert kv.1 kv.2 m) acc = acc ++ ps
  | [], acc, _ => by simp
  | (k, v) :: rest, acc, h => by
    have hins : btreeInsert k v acc = acc ++ [(k, v)] := by
      refine btreeInsert_append k v acc fun k' hk' => ?_
      have := List.pairwise_append.mp (by simpa [keysOf] using h)
      exact this.2.2 k' hk' k (by simp [keysOf])
    simp only [List.foldl_cons, hins]
    have hrest : (keysOf (acc ++ [(k, v)]) ++ keysOf rest).Pairwise
        (fun a b => strLt a b = true) := by
      simp only [keysOf, List.map_append, List.map_cons, List.map_nil] at h ⊢
      simpa [List.append_assoc] using h
    rw [foldl_btreeInsert_sorted rest (acc ++ [(k, v)]) hrest]
    simp

theorem strLt_total : ∀ {a b : Str},
    strLt a b = false → a ≠ b → strLt b a = true
  | [], [] => by simp
  | [], _ :: _ => by simp [strLt]
  | _ :: _, [] => by simp [strLt]
  | a :: as_, b :: bs => by
    simp only [strLt]
    rcases lt_trichotomy a b with h | h | h
    · simp [h]
    · subst h
      simp only [lt_self_iff_false, if_false, ne_eq, List.cons.injEq,
        true_and]
      exact fun h1 h2 => strLt_total h1 h2
    · simp [h, not_lt.mpr h.le]

theorem mem_keysOf_btreeInsert {k v q : Str} {m : List (Str × Str)} :
    q ∈ keysOf (btreeInsert k v m) → q ∈ keysOf m ∨ q = k := by
  induction m with
  | nil => simp [btreeInsert, keysOf]
  | cons kv rest ih =>
    obtain ⟨k', v'⟩ := kv
    simp only [btreeInsert]
    by_cases hlt : strLt k k' = true
    · rw [if_pos hlt]
      simp only [keysOf, List.map_cons, List.mem_cons]
      tauto
    · rw [if_neg (by simp [hlt])]
      by_cases heq : k = k'
      · rw [if_pos heq]
        simp only [keysOf, List.map_cons, List.mem_cons]
        tauto
      · rw [if_neg heq]
        simp only [keysOf, List.map_cons, List.mem_cons]
        intro h
        rcases h with rfl | h
        · tauto
        · rcases ih (by simpa [keysOf] using h) with h' | h'
          · simp only [keysOf] at h'
            tauto
          · tauto

/-- `btreeInsert` preserves strict key-sortedness. -/
theorem btreeInsert_pairwise (k v : Str) :
    ∀ m, (keysOf m).Pairwise (fun a b => strLt a b = true) →
      (keysOf (btreeInsert k v m)).Pairwise (fun a b => strLt a b = true)
  | [], _ => by simp [btreeInsert, keysOf]
  | (k', v') :: rest, h => by
    have h' : (∀ q ∈ keysOf rest, strLt k' q = true) ∧
        (keysOf rest).Pairwise (fun a b => strLt a b = true) := by
      have := (List.pairwise_cons.mp (show (k' :: keysOf rest).Pairwise
        (fun a b => strLt a b = true) from h))
      exact this
    simp only [btreeInsert]
    by_cases hlt : strLt k k' = true
    · rw [if_pos hlt]
      show (k :: k' :: keysOf rest).Pairwise _
      refine List.pairwise_cons.mpr ⟨?_, h⟩
      intro q hq
      rcases List.mem_cons.mp hq with rfl | hq
      · exact hlt
      · exact strLt_trans hlt (h'.1 q hq)
    · rw [if_neg (by simp [hlt])]
      by_cases heq : k = k'
      · rw [if_pos heq]
        show (k :: keysOf rest).Pairwise _
        refine List.pairwise_cons.mpr ⟨?_, h'.2⟩
        intro q hq
        exact heq ▸ h'.1 q hq
      · rw [if_neg heq]
        show (k' :: keysOf (btreeInsert k v rest)).Pairwise _
        refine List.pairwise_cons.mpr ⟨?_, btreeInsert_pairwise k v rest h'.2⟩
        intro q hq
        rcases mem_keysOf_btreeInsert hq with hm | rfl
        · exact h'.1 q hm
        · exact strLt_total (Bool.eq_false_iff.mpr hlt) heq

/-- Folding pairs into a `BTreeMap` then reading a key returns the value of
the LAST pair with that key, falling back to the initial map. -/
theorem lookupA_foldl_btreeInsert :
    ∀ (ps init : List (Str × Str)) (k : Str),
      lookupA (ps.foldl (fun m kv => btreeInsert kv.1 kv.2 m) init) k =
        match ps.reverse.find? (fun kv => kv.1 = k) with
        | some kv => some kv.2
        | none => lookupA init k
  | [], init, k => by simp
  | p :: rest, init, k => by
    simp only [List.foldl_cons, List.reverse_cons, List.find?_append]
    rw [lookupA_foldl_btreeInsert rest (btreeInsert p.1 p.2 init) k]
    cases hfind : rest.reverse.find? (fun kv => kv.1 = k) with
    | some kv => simp
    | none =>
      rw [lookupA_btreeInsert]
      simp only [Option.none_or, List.find?_cons, List.find?_nil]
      by_cases hk : k = p.1
      · simp [hk]
      · have hne : (decide (p.1 = k)) = false := by
          simp
          exact fun h => hk h.symm
        rw [hne]
        simp [hk]

/-! ## Helper lemmas: list scanning -/

theorem takeWhile_all {p : Char → Bool} :
    ∀ {xs : Str}, (∀ x ∈ xs, p x = true) → xs.takeWhile p = xs
  | [], _ => rfl
  | x :: rest, h => by
    have hx : p x = true := h x (by simp)
    simp only [List.takeWhile_cons, hx, if_true]
    rw [takeWhile_all fun y hy => h y (by simp [hy])]

theorem dropWhile_all {p : Char → Bool} :
    ∀ {xs : Str}, (∀ x ∈ xs, p x = true) → xs.dropWhile p = []
  | [], _ => rfl
  | x :: rest, h => by
    have hx : p x = true := h x (by simp)
    simp only [List.dropWhile_cons, hx, if_true]
    exact dropWhile_all fun y hy => h y (by simp [hy])

theorem takeWhile_append_stop {p : Char → Bool} {y : Char} {ys : Str}
    (hy : p y = false) :
    ∀ {xs : Str}, (∀ x ∈ xs, p x = true) →
      (xs ++ y :: ys).takeWhile p = xs
  | [], _ => by simp [List.takeWhile_cons, hy]
  | x :: rest, h => by
    have hx : p x = true := h x (by simp)
    simp only [List.cons_append, List.takeWhile_cons, hx, if_true]
    rw [takeWhile_append_stop hy fun z hz => h z (by simp [hz])]

theorem dropWhile_append_stop {p : Char → Bool} {y : Char} {ys : Str}
    (hy : p y = false) :
    ∀ {xs : Str}, (∀ x ∈ xs, p x = true) →
      (xs ++ y :: ys).dropWhile p = y :: ys
  | [], _ => by simp [List.dropWhile_cons, hy]
  | x :: rest, h => by
    have hx : p x = true := h x (by simp)
    simp only [List.cons_append, List.dropWhile_cons, hx, if_true]
    exact dropWhile_append_stop hy fun z hz => h z (by simp [hz])

theorem splitColon_no_colon :
    ∀ {xs : Str}, ':' ∉ xs → splitColon xs = none
  | [], _ => rfl
  | x :: rest, h => by
    have hx : ¬ x = ':' := fun hh => h (hh ▸ List.mem_cons_self x rest)
    simp only [splitColon, hx, if_false]
    rw [splitColon_no_colon fun hh => h (List.mem_cons_of_mem _ hh)]
    rfl

theorem splitColon_append {ys : Str} :
    ∀ {xs : Str}, ':' ∉ xs → splitColon (xs ++ ':' :: ys) = some (xs, ys)
  | [], _ => by simp [splitColon]
  | x :: rest, h => by
    have hx : ¬ x = ':' := fun hh => h (hh ▸ List.mem_cons_self x rest)
    simp only [List.cons_append, splitColon, hx, if_false, List.append_eq]
    rw [splitColon_append fun hh => h (List.mem_cons_of_mem _ hh)]
    rfl

theorem afterLastAt_no_at {s : Str} (h : '@' ∉ s) : afterLastAt s = s := by
  unfold afterLastAt
  rw [takeWhile_all, List.reverse_reverse]
  intro x hx
  have : x ∈ s := List.mem_reverse.mp hx
  simp only [decide_eq_true_eq]
  exact fun hh => h (hh ▸ this)

/-! ## Helper lemmas: decimal digits -/

theorem digitVal_digitChar {d : Nat} (h : d < 10) :
    digitVal (digitChar d) = d := by
  interval_cases d <;> decide

theorem isDigit_digitChar {d : Nat} (h : d < 10) :
    (digitChar d).isDigit = true := by
  interval_cases d <;> decide

theorem natToDigits_all_digits (n : Nat) :
    ∀ c ∈ natToDigits n, c.isDigit = true := by
  induction n using Nat.strong_induction_on with
  | _ n ih =>
    rw [natToDigits]
    by_cases h : n < 10
    · simp only [h, dif_pos]
      intro c hc
      simp only [List.mem_singleton] at hc
      exact hc ▸ isDigit_digitChar h
    · simp only [h, dif_neg, not_false_iff]
      intro c hc
      rcases List.mem_append.mp hc with hc | hc
      · exact ih (n / 10) (Nat.div_lt_self (by omega) (by omega)) c hc
      · simp only [List.mem_singleton] at hc
        exact hc ▸ isDigit_digitChar (Nat.mod_lt n (by omega))

theorem natToDigits_ne_nil (n : Nat) : natToDigits n ≠ [] := by
  rw [natToDigits]
  by_cases h : n < 10 <;> simp [h]

theorem digitsToNat_append (xs : Str) (c : Char) :
    digitsToNat (xs ++ [c]) = 10 * digitsToNat xs + digitVal c := by
  unfold digitsToNat
  rw [List.foldl_append]
  rfl

theorem digitsToNat_natToDigits (n : Nat) :
    digitsToNat (natToDigits n) = n := by
  induction n using Nat.strong_induction_on with
  | _ n ih =>
    rw [natToDigits]
    by_cases h : n < 10
    · simp only [h, dif_pos]
      show digitsToNat [digitChar n] = n
      unfold digitsToNat
      simp [digitVal_digitChar h]
    · simp only [h, dif_neg, not_false_iff]
      rw [digitsToNat_append,
        ih (n / 10) (Nat.div_lt_self (by omega) (by omega)),
        digitVal_digitChar (Nat.mod_lt n (by omega))]
      omega

/-! ## Helper lemmas: query round trip -/

/-- A character that survives the render/reparse round trip inside a query
key or value. -/
def qchar (c : Char) : Bool := !(c = '&' || c = '=' || c = '%' || c = '+' || c = '#')

/-- A query pair whose rendering re-parses to itself. -/
def pairOk (kv : Str × Str) : Bool :=
  kv.1 ≠ [] && kv.1.all qchar && kv.2.all qchar

theorem percentDecode_id :
    ∀ {s : Str}, (∀ c ∈ s, c ≠ '%' ∧ c ≠ '+') → percentDecode s = s := by
  intro s
  induction s with
  | nil => intro _; rfl
  | cons c rest ih =>
    intro h
    have hc := h c (by simp)
    rw [percentDecode.eq_def]
    split
    · rename_i heq
      exact absurd heq (by simp)
    · rename_i a b rest2 heq
      injection heq with h1 _
      exact absurd h1 hc.1
    · rename_i cc tl hno heq
      injection heq with h1 h2
      subst h1
      subst h2
      rw [if_neg hc.2, ih fun x hx => h x (List.mem_cons_of_mem _ hx)]

theorem splitAmp_ne_nil : ∀ (xs : Str), splitAmp xs ≠ []
  | [] => by simp [splitAmp]
  | c :: rest => by
    simp only [splitAmp]
    by_cases hc : c = '&'
    · simp [hc]
    · simp only [hc, if_false]
      cases h : splitAmp rest <;> simp

theorem splitAmp_no_amp : ∀ {xs : Str}, '&' ∉ xs → splitAmp xs = [xs]
  | [], _ => rfl
  | c :: rest, h => by
    have hc : ¬ c = '&' := fun hh => h (hh ▸ List.mem_cons_self c rest)
    simp only [splitAmp, hc, if_false]
    rw [splitAmp_no_amp fun hh => h (List.mem_cons_of_mem _ hh)]

theorem splitAmp_append {ys : Str} :
    ∀ {xs : Str}, '&' ∉ xs → splitAmp (xs ++ '&' :: ys) = xs :: splitAmp ys
  | [], _ => by simp [splitAmp]
  | c :: rest, h => by
    have hc : ¬ c = '&' := fun hh => h (hh ▸ List.mem_cons_self c rest)
    simp only [List.cons_append, splitAmp, hc, if_false, List.append_eq]
    rw [splitAmp_append fun hh => h (List.mem_cons_of_mem _ hh)]

theorem splitEq_no_eq : ∀ {k : Str}, '=' ∉ k → splitEq k = (k, none)
  | [], _ => rfl
  | c :: rest, h => by
    have hc : ¬ c = '=' := fun hh => h (hh ▸ List.mem_cons_self c rest)
    simp only [splitEq, hc, if_false]
    rw [splitEq_no_eq fun hh => h (List.mem_cons_of_mem _ hh)]

theorem splitEq_append {v : Str} :
    ∀ {k : Str}, '=' ∉ k → splitEq (k ++ '=' :: v) = (k, some v)
  | [], _ => by simp [splitEq]
  | c :: rest, h => by
    have hc : ¬ c = '=' := fun hh => h (hh ▸ List.mem_cons_self c rest)
    simp only [List.cons_append, splitEq, hc, if_false, List.append_eq]
    rw [splitEq_append fun hh => h (List.mem_cons_of_mem _ hh)]

/-- The rendered form of one pair. -/
def renderPair (kv : Str × Str) : Str :=
  if kv.2 = [] then kv.1 else kv.1 ++ '=' :: kv.2

theorem renderPairs_cons (kv : Str × Str) (p2 : Str × Str) (rest : List (Str × Str)) :
    renderPairs (kv :: p2 :: rest) = renderPair kv ++ '&' :: renderPairs (p2 :: rest) := by
  obtain ⟨k, v⟩ := kv
  by_cases hv : v = [] <;> simp [renderPairs, renderPair, hv]

theorem mem_of_qchar_facts {s : Str} (hall : s.all qchar = true) :
    ∀ c ∈ s, c ≠ '&' ∧ c ≠ '=' ∧ c ≠ '%' ∧ c ≠ '+' ∧ c ≠ '#' := by
  intro c hc
  have := List.all_eq_true.mp hall c hc
  simp only [qchar, Bool.not_eq_true', Bool.or_eq_false_iff, decide_eq_false_iff_not]
    at this
  tauto

theorem renderPair_no_amp {kv : Str × Str} (h : pairOk kv = true) :
    '&' ∉ renderPair kv := by
  obtain ⟨k, v⟩ := kv
  simp only [pairOk, Bool.and_eq_true, ne_eq, decide_eq_true_eq] at h
  have hk := mem_of_qchar_facts h.1.2
  have hv := mem_of_qchar_facts h.2
  simp only [renderPair]
  by_cases hve : v = []
  · simp only [hve, if_pos rfl]
    exact fun hm => (hk '&' hm).1 rfl
  · rw [if_neg hve]
    intro hm
    rcases List.mem_append.mp hm with hm | hm
    · exact (hk '&' hm).1 rfl
    · rcases List.mem_cons.mp hm with hm | hm
      · exact absurd hm.symm (by decide)
      · exact (hv '&' hm).1 rfl

theorem renderPair_ne_nil {kv : Str × Str} (h : pairOk kv = true) :
    renderPair kv ≠ [] := by
  obtain ⟨k, v⟩ := kv
  simp only [pairOk, Bool.and_eq_true, ne_eq, decide_eq_true_eq] at h
  simp only [renderPair]
  by_cases hve : v = []
  · simpa [hve] using h.1.1
  · rw [if_neg hve]
    intro hh
    exact h.1.1 (List.append_eq_nil.mp hh).1

/-- Re-parsing one rendered pair recovers the pair. -/
theorem piece_roundtrip {kv : Str × Str} (h : pairOk kv = true) :
    (if renderPair kv = [] then none
     else
       let (k, v) := splitEq (renderPair kv)
       some (percentDecode k, percentDecode (v.getD []))) = some kv := by
  obtain ⟨k, v⟩ := kv
  have h' := h
  simp only [pairOk, Bool.and_eq_true, ne_eq, decide_eq_true_eq] at h'
  have hk := mem_of_qchar_facts h'.1.2
  have hv := mem_of_qchar_facts h'.2
  rw [if_neg (renderPair_ne_nil h)]
  by_cases hve : v = []
  · subst hve
    have hr : renderPair (k, ([] : Str)) = k := by simp [renderPair]
    rw [hr, splitEq_no_eq fun hm => (hk '=' hm).2.1 rfl]
    show some (percentDecode k, percentDecode []) = _
    rw [percentDecode_id fun c hc => ⟨(hk c hc).2.2.1, (hk c hc).2.2.2.1⟩]
    rfl
  · have hr : renderPair (k, v) = k ++ '=' :: v := by simp [renderPair, hve]
    rw [hr, splitEq_append fun hm => (hk '=' hm).2.1 rfl]
    show some (percentDecode k, percentDecode v) = _
    rw [percentDecode_id fun c hc => ⟨(hk c hc).2.2.1, (hk c hc).2.2.2.1⟩,
      percentDecode_id fun c hc => ⟨(hv c hc).2.2.1, (hv c hc).2.2.2.1⟩]

/-- Re-parsing a rendered non-empty query recovers its pairs. -/
theorem queryPairs_renderPairs :
    ∀ {ps : List (Str × Str)}, ps ≠ [] → (∀ kv ∈ ps, pairOk kv = true) →
      queryPairs (renderPairs ps) = ps
  | [], h, _ => absurd rfl h
  | [kv], _, hok => by
    have h1 : pairOk kv = true := hok kv (by simp)
    have : renderPairs [kv] = renderPair kv := by
      obtain ⟨k, v⟩ := kv
      simp [renderPairs, renderPair]
    rw [this]
    unfold queryPairs
    rw [splitAmp_no_amp (renderPair_no_amp h1)]
    simp only [List.filterMap_cons, List.filterMap_nil]
    have := piece_roundtrip h1
    simp only at this
    rw [this]
  | kv :: p2 :: rest, _, hok => by
    have h1 : pairOk kv = true := hok kv (by simp)
    rw [renderPairs_cons]
    unfold queryPairs
    rw [splitAmp_append (renderPair_no_amp h1)]
    simp only [List.filterMap_cons]
    have hpc := piece_roundtrip h1
    simp only at hpc
    rw [hpc]
    have ih := queryPairs_renderPairs
      (show (p2 :: rest : List (Str × Str)) ≠ [] by simp)
      fun q hq => hok q (List.mem_cons_of_mem _ hq)
    unfold queryPairs at ih
    rw [ih]

/-! ## The canonical-form predicate and the parse/render round trip -/

/-- A canonical `ValidatedUrl` that survives the render/reparse round trip:
the host is non-empty, free of separator characters, already lowercase, and
non-local; the port (if any) is in range and non-default; the path starts
with `/`, contains no `?`/`#`, and — except for the root — does not end in
`/`; the query (if any) is a non-empty, key-sorted list of benign pairs.
Every output of a successful canonicalization satisfies all of these except
possibly the trailing-slash condition (an input path ending in `//` is
normalized to a path ending in `/`). -/
def GoodCanon (v : ValidatedUrl) : Prop :=
  v.host ≠ []
  ∧ v.host.all authChar = true
  ∧ ':' ∉ v.host
  ∧ '@' ∉ v.host
  ∧ toLowerStr v.host = v.host
  ∧ v.host ≠ "localhost".toList
  ∧ startsWithStr "127.".toList v.host = false
  ∧ startsWithStr "192.168.".toList v.host = false
  ∧ startsWithStr "10.".toList v.host = false
  ∧ (match v.port with
     | none => True
     | some p => p < 65536 ∧ p ≠ v.scheme.defaultPort)
  ∧ v.path.head? = some '/'
  ∧ v.path.all pathChar = true
  ∧ (v.path = "/".toList ∨ v.path.getLast? ≠ some '/')
  ∧ (match v.query with
     | none => True
     | some ps => ps ≠ [] ∧ ps.all pairOk = true
         ∧ (keysOf ps).Pairwise fun a b => strLt a b = true)

instance (v : ValidatedUrl) : Decidable (GoodCanon v) := by
  unfold GoodCanon
  cases v.port <;> cases v.query <;> exact inferInstance

/-- The `url::Url` value that parsing the canonical rendering produces. -/
def rawOf (v : ValidatedUrl) : RawUrl :=
  { scheme := v.scheme.render
    host := some v.host
    port := v.port
    path := v.path
    query := v.query.map renderPairs }

/-- The `[:port]` fragment of the rendering. -/
def portStrOf (v : ValidatedUrl) : Str :=
  match v.port with
  | some p => ':' :: natToDigits p
  | none => []

/-- The `[?query]` fragment of the rendering. -/
def queryStrOf (v : ValidatedUrl) : Str :=
  match v.query with
  | some ps => if ps = [] then [] else '?' :: renderPairs ps
  | none => []

theorem render_decompose (v : ValidatedUrl) :
    v.render = v.scheme.render
      ++ ':' :: '/' :: '/' :: (v.host ++ portStrOf v ++ v.path ++ queryStrOf v) := by
  unfold ValidatedUrl.render portStrOf queryStrOf
  rw [show ("://".toList : Str) = [':', '/', '/'] from rfl]
  cases v.port <;> cases v.query <;> simp [List.append_assoc]

theorem digit_not_sep {c : Char} (h : c.isDigit = true) :
    c ≠ '/' ∧ c ≠ '?' ∧ c ≠ '#' ∧ c ≠ ':' ∧ c ≠ '@' := by
  refine ⟨?_, ?_, ?_, ?_, ?_⟩ <;> rintro rfl <;> exact absurd h (by decide)

theorem authChar_of_not {c : Char} (h1 : c ≠ '/') (h2 : c ≠ '?') (h3 : c ≠ '#') :
    authChar c = true := by
  simp [authChar, h1, h2, h3]

theorem pathChar_of_not {c : Char} (h2 : c ≠ '?') (h3 : c ≠ '#') :
    pathChar c = true := by
  simp [pathChar, h2, h3]

/-- Every character of the host-and-port block passes the authority scan. -/
theorem hostPort_all_authChar (v : ValidatedUrl) (hg : GoodCanon v) :
    ∀ c ∈ v.host ++ portStrOf v, authChar c = true := by
  intro c hc
  rcases List.mem_append.mp hc with hc | hc
  · exact List.all_eq_true.mp hg.2.1 c hc
  · unfold portStrOf at hc
    cases hp : v.port with
    | none => rw [hp] at hc; simp at hc
    | some p =>
      rw [hp] at hc
      rcases List.mem_cons.mp hc with rfl | hc
      · decide
      · have hd := natToDigits_all_digits p c hc
        have := digit_not_sep hd
        exact authChar_of_not this.1 this.2.1 this.2.2.1

/-- Splitting the rendered string after the scheme marker recovers the
authority block and the path-plus-query tail. -/
theorem auth_scan (v : ValidatedUrl) (hg : GoodCanon v) :
    (v.host ++ portStrOf v ++ v.path ++ queryStrOf v).takeWhile authChar
        = v.host ++ portStrOf v
    ∧ (v.host ++ portStrOf v ++ v.path ++ queryStrOf v).dropWhile authChar
        = v.path ++ queryStrOf v := by
  obtain ⟨ptail, hpath⟩ : ∃ t, v.path = '/' :: t := by
    have hh := hg.2.2.2.2.2.2.2.2.2.2.1
    cases hp : v.path with
    | nil => rw [hp] at hh; simp at hh
    | cons c t =>
      rw [hp] at hh
      simp only [List.head?_cons, Option.some.injEq] at hh
      exact ⟨t, by rw [hh]⟩
  have hshape : v.host ++ portStrOf v ++ v.path ++ queryStrOf v
      = (v.host ++ portStrOf v) ++ '/' :: (ptail ++ queryStrOf v) := by
    rw [hpath]
    simp [List.append_assoc]
  rw [hshape,
    takeWhile_append_stop (by decide) (hostPort_all_authChar v hg),
    dropWhile_append_stop (by decide) (hostPort_all_authChar v hg), hpath]
  simp [List.append_assoc]

theorem renderPair_mem {kv : Str × Str} {c : Char} (h : c ∈ renderPair kv) :
    c ∈ kv.1 ∨ c ∈ kv.2 ∨ c = '=' := by
  obtain ⟨k, vv⟩ := kv
  simp only [renderPair] at h
  by_cases hv : vv = []
  · rw [if_pos hv] at h
    exact Or.inl h
  · rw [if_neg hv] at h
    rcases List.mem_append.mp h with h | h
    · exact Or.inl h
    · rcases List.mem_cons.mp h with rfl | h
      · exact Or.inr (Or.inr rfl)
      · exact Or.inr (Or.inl h)

theorem renderPairs_mem {c : Char} :
    ∀ {ps : List (Str × Str)}, c ∈ renderPairs ps →
      (∃ kv ∈ ps, c ∈ kv.1 ∨ c ∈ kv.2) ∨ c = '=' ∨ c = '&'
  | [], h => by simp [renderPairs] at h
  | [kv], h => by
    have : renderPairs [kv] = renderPair kv := by
      obtain ⟨k, vv⟩ := kv
      simp [renderPairs, renderPair]
    rw [this] at h
    rcases renderPair_mem h with h | h | h
    · exact Or.inl ⟨kv, by simp, Or.inl h⟩
    · exact Or.inl ⟨kv, by simp, Or.inr h⟩
    · exact Or.inr (Or.inl h)
  | kv :: p2 :: rest, h => by
    rw [renderPairs_cons] at h
    rcases List.mem_append.mp h with h | h
    · rcases renderPair_mem h with h | h | h
      · exact Or.inl ⟨kv, by simp, Or.inl h⟩
      · exact Or.inl ⟨kv, by simp, Or.inr h⟩
      · exact Or.inr (Or.inl h)
    · rcases List.mem_cons.mp h with rfl | h
      · exact Or.inr (Or.inr rfl)
      · rcases renderPairs_mem h with ⟨q, hq, hc⟩ | h
        · exact Or.inl ⟨q, List.mem_cons_of_mem _ hq, hc⟩
        · exact Or.inr h

/-- No `#` occurs in a rendered query of benign pairs. -/
theorem renderPairs_no_hash {ps : List (Str × Str)}
    (hok : ∀ kv ∈ ps, pairOk kv = true) :
    ∀ c ∈ renderPairs ps, c ≠ '#' := by
  intro c hc
  rcases renderPairs_mem hc with ⟨q, hq, hcq⟩ | h | h
  · have h' := hok q hq
    simp only [pairOk, Bool.and_eq_true, ne_eq, decide_eq_true_eq] at h'
    rcases hcq with hcq | hcq
    · exact (mem_of_qchar_facts h'.1.2 c hcq).2.2.2.2
    · exact (mem_of_qchar_facts h'.2 c hcq).2.2.2.2
  · subst h; decide
  · subst h; decide

/-- Scanning the path-plus-query tail recovers the path and the raw query. -/
theorem pathQuery_scan (v : ValidatedUrl) (hg : GoodCanon v) :
    pathOf (v.path ++ queryStrOf v) = v.path
    ∧ queryOf (v.path ++ queryStrOf v) = v.query.map renderPairs := by
  have hpc : ∀ c ∈ v.path, pathChar c = true :=
    List.all_eq_true.mp hg.2.2.2.2.2.2.2.2.2.2.2.1
  have hq := hg.2.2.2.2.2.2.2.2.2.2.2.2.2
  cases hqv : v.query with
  | none =>
    have hqs : queryStrOf v = [] := by unfold queryStrOf; rw [hqv]
    rw [hqs, List.append_nil]
    constructor
    · exact takeWhile_all hpc
    · unfold queryOf
      rw [dropWhile_all hpc]
      rfl
  | some ps =>
    rw [hqv] at hq
    have hq' : ps ≠ [] ∧ ps.all pairOk = true
        ∧ (keysOf ps).Pairwise (fun a b => strLt a b = true) := hq
    have hqs : queryStrOf v = '?' :: renderPairs ps := by
      unfold queryStrOf
      rw [hqv]
      show (if ps = [] then [] else '?' :: renderPairs ps) = _
      rw [if_neg hq'.1]
    rw [hqs]
    constructor
    · exact takeWhile_append_stop (by decide) hpc
    · unfold queryOf
      rw [dropWhile_append_stop (by decide) hpc]
      have hnh : (renderPairs ps).takeWhile hashStop = renderPairs ps := by
        refine takeWhile_all fun c hc => ?_
        have := renderPairs_no_hash (List.all_eq_true.mp hq'.2.1) c hc
        simp [hashStop, this]
      show some ((renderPairs ps).takeWhile hashStop) = _
      rw [hnh]
      rfl

theorem parseUrl_scheme_append (sr S : Str) (h1 : ':' ∉ sr) (h2 : sr ≠ [])
    (h3 : sr.all schemeChar = true) :
    parseUrl (sr ++ ':' :: '/' :: '/' :: S) = parseAuthority (toLowerStr sr) S := by
  unfold parseUrl
  rw [splitColon_append h1]
  simp [h2, h3]

/-- Parsing the authority/path/query part of a canonical rendering recovers
the components. -/
theorem parseAuthority_render (v : ValidatedUrl) (hg : GoodCanon v) (sch : Str) :
    parseAuthority sch (v.host ++ portStrOf v ++ v.path ++ queryStrOf v)
      = some ⟨sch, some v.host, v.port, v.path, v.query.map renderPairs⟩ := by
  unfold parseAuthority
  dsimp only
  rw [(auth_scan v hg).1, (auth_scan v hg).2]
  have hat : afterLastAt (v.host ++ portStrOf v) = v.host ++ portStrOf v := by
    refine afterLastAt_no_at fun hm => ?_
    have := hostPort_all_authChar v hg '@' hm
    rcases List.mem_append.mp hm with hm | hm
    · exact hg.2.2.2.1 hm
    · unfold portStrOf at hm
      cases hp : v.port with
      | none => rw [hp] at hm; simp at hm
      | some p =>
        rw [hp] at hm
        rcases List.mem_cons.mp hm with hh | hm
        · exact absurd hh (by decide)
        · exact absurd ((natToDigits_all_digits p '@' hm)) (by decide)
  rw [hat]
  cases hp : v.port with
  | none =>
    have hps : portStrOf v = [] := by unfold portStrOf; rw [hp]
    rw [hps, List.append_nil, splitColon_no_colon hg.2.2.1]
    dsimp only
    rw [if_neg hg.1]
    rw [(pathQuery_scan v hg).1, (pathQuery_scan v hg).2]
  | some p =>
    have hps : portStrOf v = ':' :: natToDigits p := by unfold portStrOf; rw [hp]
    rw [hps, splitColon_append hg.2.2.1]
    dsimp only
    rw [if_neg hg.1]
    rw [if_neg (natToDigits_ne_nil p)]
    rw [if_pos (List.all_eq_true.mpr (natToDigits_all_digits p))]
    have hlt : p < 65536 := by
      have h10 := hg.2.2.2.2.2.2.2.2.2.1
      rw [hp] at h10
      exact h10.1
    rw [digitsToNat_natToDigits, if_pos hlt]
    rw [(pathQuery_scan v hg).1, (pathQuery_scan v hg).2]

/-- Parsing a canonical rendering recovers the raw components. -/
theorem parse_render (v : ValidatedUrl) (hg : GoodCanon v) :
    parseUrl v.render = some (rawOf v) := by
  rw [render_decompose,
    parseUrl_scheme_append _ _ (by cases v.scheme <;> decide)
      (by cases v.scheme <;> decide) (by cases v.scheme <;> decide),
    show toLowerStr v.scheme.render = v.scheme.render by cases v.scheme <;> decide,
    parseAuthority_render v hg]
  rfl

/-- Re-validating the raw components of a canonical rendering gives back the
same `ValidatedUrl`. -/
theorem tryFrom_rawOf (v : ValidatedUrl) (hg : GoodCanon v) :
    ValidatedUrl.tryFrom (rawOf v) = .ok v := by
  obtain ⟨scheme, host, port, path, query⟩ := v
  have h1 : ¬ (host = []) := hg.1
  have h5 : toLowerStr host = host := hg.2.2.2.2.1
  have hlocal : (host = "localhost".toList
      || startsWithStr "127.".toList host
      || startsWithStr "192.168.".toList host
      || startsWithStr "10.".toList host) = false := by
    have h6 : host ≠ "localhost".toList := hg.2.2.2.2.2.1
    have h7 : startsWithStr "127.".toList host = false := hg.2.2.2.2.2.2.1
    have h8 : startsWithStr "192.168.".toList host = false := hg.2.2.2.2.2.2.2.1
    have h9 : startsWithStr "10.".toList host = false := hg.2.2.2.2.2.2.2.2.1
    simp only [Bool.or_eq_false_iff, decide_eq_false_iff_not]
    exact ⟨⟨⟨h6, h7⟩, h8⟩, h9⟩
  have hport : port.filter (fun p => p ≠ scheme.defaultPort) = port := by
    cases port with
    | none => rfl
    | some p =>
      have h10 : p < 65536 ∧ p ≠ scheme.defaultPort := hg.2.2.2.2.2.2.2.2.2.1
      simp [Option.filter, h10.2]
  have hpath : (if path = [] || path = "/".toList then "/".toList
      else match stripSuffixChar path '/' with
        | some stripped => stripped
        | none => path) = path := by
    have h11 : path.head? = some '/' := hg.2.2.2.2.2.2.2.2.2.2.1
    have h13 : path = "/".toList ∨ path.getLast? ≠ some '/' :=
      hg.2.2.2.2.2.2.2.2.2.2.2.2.1
    rcases h13 with h13 | h13
    · rw [h13]
      simp
    · have hne : path ≠ [] := by
        intro hh
        rw [hh] at h11
        simp at h11
      have hne2 : ¬ ((path = [] : Bool) || (path = "/".toList : Bool)) = true := by
        simp only [Bool.or_eq_true, decide_eq_true_eq]
        rintro (hh | hh)
        · exact hne hh
        · rw [hh] at h13
          simp at h13
      rw [if_neg hne2]
      unfold stripSuffixChar
      rw [if_neg h13]
  have hquery : (match (Option.map renderPairs query : Option Str) with
      | some q =>
        if (queryPairs q).foldl (fun m kv => btreeInsert kv.1 kv.2 m) [] = []
        then none
        else some ((queryPairs q).foldl (fun m kv => btreeInsert kv.1 kv.2 m) [])
      | none => none) = query := by
    cases query with
    | none => rfl
    | some ps =>
      have h14' : ps ≠ [] ∧ ps.all pairOk = true
          ∧ (keysOf ps).Pairwise (fun a b => strLt a b = true) :=
        hg.2.2.2.2.2.2.2.2.2.2.2.2.2
      show (if (queryPairs (renderPairs ps)).foldl (fun m kv => btreeInsert kv.1 kv.2 m) [] = []
          then none
          else some ((queryPairs (renderPairs ps)).foldl (fun m kv => btreeInsert kv.1 kv.2 m) []))
        = some ps
      rw [queryPairs_renderPairs h14'.1 (List.all_eq_true.mp h14'.2.1)]
      rw [foldl_btreeInsert_sorted ps [] (by simpa [keysOf] using h14'.2.2)]
      simp [h14'.1]
  have hs : (if Scheme.render scheme = "http".toList then
      Except.ok (ε := ValidationError) Scheme.http
    else if Scheme.render scheme = "https".toList then Except.ok Scheme.https
    else Except.error (.unsupportedScheme (Scheme.render scheme))) = .ok scheme := by
    cases scheme <;> rfl
  unfold ValidatedUrl.tryFrom rawOf
  dsimp only
  rw [hs]
  dsimp only
  rw [if_neg h1, h5, hlocal]
  simp only [Bool.false_eq_true, if_false]
  rw [hport, hpath, hquery]

/-- A canonical rendering re-canonicalizes to itself. -/
theorem normalize_url_render (v : ValidatedUrl) (hg : GoodCanon v) :
    normalize_url v.render = .ok v.render := by
  unfold normalize_url validate_url
  have hne : v.render ≠ [] := by
    rw [render_decompose]
    cases v.scheme <;> simp [Scheme.render]
  rw [if_neg hne, parse_render v hg]
  show Except.map ValidatedUrl.render (ValidatedUrl.tryFrom (rawOf v)) = _
  rw [tryFrom_rawOf v hg]
  rfl

/-! ## Helper lemmas: the lifecycle coordinator -/

/-- The counter invariant the code actually maintains: `inFlight` counts
the accepted requests whose futures have not been polled to completion —
pending ones plus dropped ones (a drop never decrements). -/
def coordInv (s : CoordState) : Prop :=
  s.inFlight = s.pending.length + s.droppedR.length

theorem coordStep_inv {s s' : CoordState} (hs : coordInv s) {e : ReqEvent}
    (h : coordStep s e = some s') : coordInv s' := by
  unfold coordInv at hs ⊢
  cases e with
  | arrive r =>
    simp only [coordStep] at h
    by_cases ha : r ∈ s.arrivedR
    · rw [if_pos ha] at h
      exact absurd h (by simp)
    · rw [if_neg ha] at h
      by_cases hsd : s.shuttingDown
      · rw [if_pos hsd] at h
        obtain rfl := Option.some.inj h
        simpa using hs
      · rw [if_neg hsd] at h
        obtain rfl := Option.some.inj h
        simp only [List.length_cons]
        omega
  | pollReady r =>
    simp only [coordStep] at h
    by_cases hm : r ∈ s.pending
    · rw [if_pos hm] at h
      obtain rfl := Option.some.inj h
      simp only [List.length_erase_of_mem hm]
      have hlen : 1 ≤ s.pending.length := List.length_pos.mpr
        (fun hnil => by rw [hnil] at hm; simp at hm)
      omega
    · rw [if_neg hm] at h
      exact absurd h (by simp)
  | dropFut r =>
    simp only [coordStep] at h
    by_cases hm : r ∈ s.pending
    · rw [if_pos hm] at h
      obtain rfl := Option.some.inj h
      simp only [List.length_erase_of_mem hm, List.length_cons]
      have hlen : 1 ≤ s.pending.length := List.length_pos.mpr
        (fun hnil => by rw [hnil] at hm; simp at hm)
      omega
    · rw [if_neg hm] at h
      exact absurd h (by simp)
  | signalShutdown =>
    obtain rfl := Option.some.inj h
    exact hs

theorem foldl_bind_none (tr : List ReqEvent) :
    tr.foldl (fun acc e => acc.bind fun s => coordStep s e) none = none := by
  induction tr with
  | nil => rfl
  | cons e tr ih => simpa using ih

theorem coordRun_inv_from {s0 : CoordState} (h0 : coordInv s0) :
    ∀ {tr : List ReqEvent} {s : CoordState},
      tr.foldl (fun acc e => acc.bind fun s => coordStep s e) (some s0) = some s →
      coordInv s := by
  intro tr
  induction tr generalizing s0 with
  | nil =>
    intro s h
    obtain rfl := Option.some.inj h
    exact h0
  | cons e tr ih =>
    intro s h
    simp only [List.foldl_cons, Option.some_bind] at h
    cases hstep : coordStep s0 e with
    | none =>
      rw [hstep] at h
      rw [foldl_bind_none] at h
      exact absurd h (by simp)
    | some s1 =>
      rw [hstep] at h
      exact ih (coordStep_inv h0 hstep) h

/-- Any completed run of the coordinator satisfies the counter invariant. -/
theorem coordRun_inv {tr : List ReqEvent} {s : CoordState}
    (h : coordRun tr = some s) : coordInv s :=
  coordRun_inv_from (by simp [coordInv, initCoord]) h

/-! ## Helper lemmas: inverting `ValidatedUrl::try_from` -/

theorem btreeInsert_ne_nil (k v : Str) (m : List (Str × Str)) :
    btreeInsert k v m ≠ [] := by
  cases m with
  | nil => simp [btreeInsert]
  | cons kv rest =>
    obtain ⟨k', v'⟩ := kv
    simp only [btreeInsert]
    split
    · simp
    · split <;> simp

theorem foldl_btreeInsert_ne_nil :
    ∀ (ps acc : List (Str × Str)), acc ≠ [] →
      ps.foldl (fun m kv => btreeInsert kv.1 kv.2 m) acc ≠ []
  | [], _, h => h
  | p :: rest, acc, _ =>
    foldl_btreeInsert_ne_nil rest (btreeInsert p.1 p.2 acc)
      (btreeInsert_ne_nil p.1 p.2 acc)

/-- The query component of a successful validation: the raw query string is
decoded into pairs, folded into a `BTreeMap`, and an empty map becomes "no
query". -/
theorem tryFrom_ok_query {u : RawUrl} {v : ValidatedUrl}
    (h : ValidatedUrl.tryFrom u = .ok v) :
    v.query = match u.query with
      | some q =>
        if (queryPairs q).foldl (fun m kv => btreeInsert kv.1 kv.2 m) [] = []
        then none
        else some ((queryPairs q).foldl (fun m kv => btreeInsert kv.1 kv.2 m) [])
      | none => none := by
  unfold ValidatedUrl.tryFrom at h
  dsimp only at h
  split at h
  · exact absurd h (by simp)
  · split at h
    · exact absurd h (by simp)
    · split at h
      · exact absurd h (by simp)
      · split at h
        · exact absurd h (by simp)
        · obtain rfl := Except.ok.inj h
          rfl

/-! ## Claim C2: canonicalization idempotence -/

/-- Claim C2, counterexample: canonicalization is NOT a fixed point on every
successfully canonicalized input.  For `"https://example.com/a//"` the
canonicalizer strips exactly one trailing slash, producing
`"https://example.com/a/"`, and canonicalizing that output strips another
slash, producing the different string `"https://example.com/a"`. -/
theorem normalize_url_double_slash_not_fixed :
    normalize_url "https://example.com/a//".toList
        = .ok "https://example.com/a/".toList
    ∧ normalize_url "https://example.com/a/".toList
        = .ok "https://example.com/a".toList
    ∧ ("https://example.com/a/".toList : Str) ≠ "https://example.com/a".toList := by
  refine ⟨by decide, by decide, by decide⟩

/-- Claim C2, amended: for every input whose canonicalization succeeds and
whose canonical form is well-behaved — its path does not end in a trailing
slash left over from an input path ending in `//` (the condition the
counterexample forces), and its host/path/query characters re-parse to
themselves — the canonical output is a fixed point:
`canonicalize(canonicalize(u)) = canonicalize(u)`. -/
theorem normalize_url_idempotent (s : Str) (v : ValidatedUrl)
    (h : validate_url s = .ok v) (hg : GoodCanon v) :
    normalize_url s = .ok v.render
    ∧ normalize_url v.render = .ok v.render := by
  constructor
  · unfold normalize_url
    rw [h]
    rfl
  · exact normalize_url_render v hg

/-- Claim C2 witness: the amended idempotence theorem applied to the
concrete input `"https://example.com/a?b=2&a=1"`. -/
theorem normalize_url_idempotent_witness :
    normalize_url "https://example.com/a?b=2&a=1".toList
        = .ok "https://example.com/a?a=1&b=2".toList
    ∧ normalize_url "https://example.com/a?a=1&b=2".toList
        = .ok "https://example.com/a?a=1&b=2".toList := by
  have h := normalize_url_idempotent "https://example.com/a?b=2&a=1".toList
    ⟨.https, "example.com".toList, none, "/a".toList,
     some [("a".toList, "1".toList), ("b".toList, "2".toList)]⟩
    (by decide) (by decide)
  exact ⟨h.1, h.2⟩

/-! ## Claim C8: query folding and rendering -/

/-- Claim C8: for every URL with a query string that validates successfully,
the decoded key/value pairs are folded into a map in which the LAST
occurrence of a repeated key wins; the map's keys are in strictly ascending
lexicographic order; the query is omitted (`none`) exactly when the folded
map is empty, in which case the rendering carries no query part; and a pair
with an empty value renders as the bare key. -/
theorem tryFrom_query_fold_spec (u : RawUrl) (v : ValidatedUrl) (qs : Str)
    (hq : u.query = some qs) (h : ValidatedUrl.tryFrom u = .ok v) :
    (∀ ps, v.query = some ps →
      (∀ k, lookupA ps k =
        match (queryPairs qs).reverse.find? (fun kv => kv.1 = k) with
        | some kv => some kv.2
        | none => none)
      ∧ (keysOf ps).Pairwise (fun a b => strLt a b = true)
      ∧ ps ≠ [])
    ∧ (v.query = none ↔ queryPairs qs = [])
    ∧ (v.query = none → queryStrOf v = [])
    ∧ (∀ ps, v.query = some ps → ∀ k val, (k, val) ∈ ps → val = [] →
        renderPair (k, val) = k) := by
  have hvq := tryFrom_ok_query h
  rw [hq] at hvq
  dsimp only at hvq
  have hfold : ∀ k,
      lookupA ((queryPairs qs).foldl (fun m kv => btreeInsert kv.1 kv.2 m) []) k =
        match (queryPairs qs).reverse.find? (fun kv => kv.1 = k) with
        | some kv => some kv.2
        | none => none := by
    intro k
    rw [lookupA_foldl_btreeInsert]
    cases (queryPairs qs).reverse.find? (fun kv => kv.1 = k) <;> rfl
  have hsorted : ∀ (l : List (Str × Str)),
      (keysOf (l.foldl (fun m kv => btreeInsert kv.1 kv.2 m) [])).Pairwise
        (fun a b => strLt a b = true) := by
    intro l
    induction l using List.reverseRecOn with
    | nil => simp [keysOf]
    | append_singleton l kv ih =>
      rw [List.foldl_append]
      exact btreeInsert_pairwise kv.1 kv.2 _ ih
  refine ⟨?_, ?_, ?_, ?_⟩
  · intro ps hps
    rw [hps] at hvq
    by_cases hz : (queryPairs qs).foldl (fun m kv => btreeInsert kv.1 kv.2 m) [] = []
    · rw [if_pos hz] at hvq
      exact absurd hvq (by simp)
    · rw [if_neg hz] at hvq
      obtain rfl := Option.some.inj hvq.symm
      exact ⟨hfold, hsorted _, hz⟩
  · constructor
    · intro hnone
      rw [hnone] at hvq
      by_cases hz : (queryPairs qs).foldl (fun m kv => btreeInsert kv.1 kv.2 m) [] = []
      · cases hqp : queryPairs qs with
        | nil => rfl
        | cons p rest =>
          rw [hqp] at hz
          simp only [List.foldl_cons] at hz
          exact absurd hz (foldl_btreeInsert_ne_nil rest _ (btreeInsert_ne_nil _ _ _))
      · rw [if_neg hz] at hvq
        exact absurd hvq (by simp)
    · intro hnil
      rw [hnil] at hvq
      simpa using hvq
  · intro hnone
    unfold queryStrOf
    rw [hnone]
  · intro ps _ k val _ hval
    simp [renderPair, hval]

/-- Claim C8 witness: the folding theorem applied to the concrete raw query
`"b=2&a=1&b=3"`: the duplicate key `b` keeps its last value `3`, the keys
come out ascending, and the map is non-empty. -/
theorem tryFrom_query_fold_spec_witness :
    lookupA [("a".toList, "1".toList), ("b".toList, "3".toList)] "b".toList
        = some "3".toList
    ∧ (keysOf [("a".toList, "1".toList), ("b".toList, "3".toList)]).Pairwise
        (fun a b => strLt a b = true) := by
  have h := tryFrom_query_fold_spec
    ⟨"https".toList, some "example.com".toList, none, "/".toList,
      some "b=2&a=1&b=3".toList⟩
    ⟨.https, "example.com".toList, none, "/".toList,
      some [("a".toList, "1".toList), ("b".toList, "3".toList)]⟩
    "b=2&a=1&b=3".toList rfl (by decide)
  have h1 := (h.1 [("a".toList, "1".toList), ("b".toList, "3".toList)] rfl)
  refine ⟨?_, h1.2.1⟩
  rw [h1.1 "b".toList]
  decide

/-! ## Claim C1: compare-or-conflict on an existing canonical URL -/

/-- Claim C1, counterexample: a submitted body of `" "` (whitespace-only,
hence present and NOT exactly equal to the stored absent body) is accepted
as an idempotent match instead of failing with `Conflict`, because the
handler normalizes the body to absent before comparing. -/
theorem addContent_blank_body_not_conflict :
    addContent
        ⟨"https://example.com/a".toList, some "T".toList, none, some " ".toList⟩
        ⟨[⟨1, "https://example.com/a".toList, some "T".toList, none, 50, none⟩], 2, 100⟩
      = (.ok ⟨1⟩,
         ⟨[⟨1, "https://example.com/a".toList, some "T".toList, none, 50, none⟩], 2, 100⟩)
    ∧ (some " ".toList : Option Str) ≠ none := by
  refine ⟨by decide, by decide⟩

/-- Claim C1, amended: when the canonicalized URL matches a stored item, the
handler compares `title` and `author` exactly as submitted and `body` after
empty/whitespace-only normalization to absent.  If all three comparisons are
equal (absent equal to absent) it returns the existing item's id and leaves
the store untouched; if any differs it fails with
`DuplicateUrlDifferentMetadata` (409 Conflict) and leaves the store
untouched. -/
theorem addContent_compare_or_conflict (payload : AddContentRequest) (s : Store)
    (nc : NewContentItem) (existing : ContentItem)
    (hnew : NewContentItem.new payload.url payload.title payload.author
        (payload.body.filter fun b => !isBlank b) = .ok nc)
    (hfind : findByUrl s.items nc.url = some existing) :
    (existing.title = nc.title ∧ existing.author = nc.author ∧ existing.body = nc.body →
      addContent payload s = (.ok ⟨existing.id⟩, s))
    ∧ ((existing.title ≠ nc.title ∨ existing.author ≠ nc.author ∨ existing.body ≠ nc.body) →
      addContent payload s = (.error .duplicateUrlDifferentMetadata, s)) := by
  unfold addContent addContentRaced
  dsimp only
  rw [hnew]
  dsimp only
  rw [hfind]
  dsimp only
  constructor
  · rintro ⟨h1, h2, h3⟩
    rw [if_neg (not_not_intro h1), if_neg (not_not_intro h2), if_neg (not_not_intro h3)]
  · intro hd
    by_cases h1 : existing.title = nc.title
    · rw [if_neg (not_not_intro h1)]
      by_cases h2 : existing.author = nc.author
      · rw [if_neg (not_not_intro h2)]
        by_cases h3 : existing.body = nc.body
        · rcases hd with hd | hd | hd <;> exact absurd (by assumption) hd
        · rw [if_pos h3]
      · rw [if_pos h2]
    · rw [if_pos h1]

/-- Claim C1 witness: the comparison theorem applied to a store holding one
item and a payload repeating its metadata exactly, and to a payload with a
different title. -/
theorem addContent_compare_or_conflict_witness :
    addContent
        ⟨"https://example.com/a".toList, some "T".toList, none, none⟩
        ⟨[⟨1, "https://example.com/a".toList, some "T".toList, none, 50, none⟩], 2, 100⟩
      = (.ok ⟨1⟩,
         ⟨[⟨1, "https://example.com/a".toList, some "T".toList, none, 50, none⟩], 2, 100⟩) := by
  have h := addContent_compare_or_conflict
    ⟨"https://example.com/a".toList, some "T".toList, none, none⟩
    ⟨[⟨1, "https://example.com/a".toList, some "T".toList, none, 50, none⟩], 2, 100⟩
    ⟨"https://example.com/a".toList, some "T".toList, none, none⟩
    ⟨1, "https://example.com/a".toList, some "T".toList, none, 50, none⟩
    (by decide) (by decide)
  exact h.1 ⟨rfl, rfl, rfl⟩

/-! ## Claim C4: lost insert race surfaces as an opaque 500 -/

/-- Claim C4, counterexample: when the lookup misses but a concurrent
request has inserted the same canonical URL with IDENTICAL metadata before
our insert runs, the handler does not re-fetch-and-return the existing id —
it propagates the store's unique-constraint violation as `DatabaseError`,
which `IntoResponse` turns into an opaque 500. -/
theorem addContentRaced_matching_race_is_500 :
    addContentRaced
        ⟨"https://example.com/a".toList, some "T".toList, none, none⟩
        ⟨[], 1, 100⟩
        ⟨[⟨1, "https://example.com/a".toList, some "T".toList, none, 50, none⟩], 2, 100⟩
      = (.error (.databaseError true),
         ⟨[⟨1, "https://example.com/a".toList, some "T".toList, none, 50, none⟩], 2, 100⟩)
    ∧ (ApiError.databaseError true).statusOf = 500 := by
  refine ⟨by decide, by decide⟩

/-- Claim C4, amended: when the canonical-url lookup misses and the insert
then hits the store's unique constraint (the lost race), the handler
propagates the violation as a raw `DatabaseError` — surfaced as an opaque
500 — regardless of whether the concurrently stored metadata matches; no
re-fetch and no equality-or-conflict comparison takes place. -/
theorem addContentRaced_unique_violation_propagates
    (payload : AddContentRequest) (sLookup sInsert : Store) (nc : NewContentItem)
    (hnew : NewContentItem.new payload.url payload.title payload.author
        (payload.body.filter fun b => !isBlank b) = .ok nc)
    (hfind : findByUrl sLookup.items nc.url = none)
    (hdup : sInsert.items.any (fun item => item.url = nc.url) = true) :
    addContentRaced payload sLookup sInsert
      = (.error (.databaseError true), sInsert)
    ∧ (ApiError.databaseError true).statusOf = 500 := by
  constructor
  · unfold addContentRaced
    dsimp only
    rw [hnew]
    dsimp only
    rw [hfind]
    dsimp only
    unfold createItem
    rw [if_pos hdup]
  · rfl

/-- Claim C4 witness: the race theorem applied to an empty lookup snapshot
and an insert snapshot already holding the canonical URL. -/
theorem addContentRaced_unique_violation_propagates_witness :
    addContentRaced
        ⟨"https://example.com/a".toList, some "U".toList, none, none⟩
        ⟨[], 1, 100⟩
        ⟨[⟨1, "https://example.com/a".toList, some "T".toList, none, 50, none⟩], 2, 100⟩
      = (.error (.databaseError true),
         ⟨[⟨1, "https://example.com/a".toList, some "T".toList, none, 50, none⟩], 2, 100⟩) :=
  (addContentRaced_unique_violation_propagates
    ⟨"https://example.com/a".toList, some "U".toList, none, none⟩
    ⟨[], 1, 100⟩
    ⟨[⟨1, "https://example.com/a".toList, some "T".toList, none, 50, none⟩], 2, 100⟩
    ⟨"https://example.com/a".toList, some "U".toList, none, none⟩
    (by decide) (by decide) (by decide)).1

/-! ## Claim C5: blank-field normalization -/

/-- Claim C5, counterexample: a whitespace-only `title` is NOT normalized to
absent — the stored item keeps `title = " "`, so the store can contain a
whitespace-only title. -/
theorem addContent_stores_blank_title :
    addContent
        ⟨"https://example.com/b".toList, some " ".toList, none, none⟩
        ⟨[], 1, 100⟩
      = (.ok ⟨1⟩,
         ⟨[⟨1, "https://example.com/b".toList, some " ".toList, none, 100, none⟩], 2, 100⟩)
    ∧ isBlank " ".toList = true := by
  refine ⟨by decide, by decide⟩

/-- Claim C5, amended: only `body` is normalized before storage — every item
the handler inserts carries the submitted `title` and `author` unchanged
(blank or not), while its `body` is never a stored empty/whitespace-only
string (a blank submitted body becomes absent). -/
theorem addContent_only_body_normalized (payload : AddContentRequest) (s : Store) :
    ∀ x ∈ (addContent payload s).2.items,
      x ∈ s.items ∨
      (x.title = payload.title ∧ x.author = payload.author ∧
        ∀ b, x.body = some b → isBlank b = false) := by
  intro x hx
  unfold addContent addContentRaced at hx
  dsimp only at hx
  cases hnew : NewContentItem.new payload.url payload.title payload.author
      (payload.body.filter fun b => !isBlank b) with
  | error e =>
    rw [hnew] at hx
    exact Or.inl hx
  | ok nc =>
    rw [hnew] at hx
    dsimp only at hx
    have hnc : nc.title = payload.title ∧ nc.author = payload.author ∧
        nc.body = payload.body.filter fun b => !isBlank b := by
      unfold NewContentItem.new at hnew
      cases hn : normalize_url payload.url with
      | error e =>
        rw [hn] at hnew
        exact absurd hnew (by simp [Except.map])
      | ok nu =>
        rw [hn] at hnew
        simp only [Except.map, Except.ok.injEq] at hnew
        rw [← hnew]
        exact ⟨rfl, rfl, rfl⟩
    cases hfind : findByUrl s.items nc.url with
    | some existing =>
      rw [hfind] at hx
      dsimp only at hx
      split_ifs at hx <;> exact Or.inl hx
    | none =>
      rw [hfind] at hx
      dsimp only at hx
      unfold createItem at hx
      by_cases hdup : s.items.any (fun item => item.url = nc.url) = true
      · rw [if_pos hdup] at hx
        exact Or.inl hx
      · rw [if_neg hdup] at hx
        dsimp only at hx
        rcases List.mem_append.mp hx with hx | hx
        · exact Or.inl hx
        · simp only [List.mem_singleton] at hx
          subst hx
          refine Or.inr ⟨hnc.1, hnc.2.1, ?_⟩
          intro b hb
          have hb' : nc.body = some b := hb
          rw [hnc.2.2] at hb'
          cases hpb : payload.body with
          | none =>
            rw [hpb] at hb'
            exact absurd hb' (by simp [Option.filter])
          | some pb =>
            rw [hpb] at hb'
            by_cases hbl : (!isBlank pb) = true
            · simp only [Option.filter, hbl, if_true] at hb'
              obtain rfl := Option.some.inj hb'
              simpa using hbl
            · simp only [Option.filter, hbl] at hb'
              exact absurd hb' (by simp)

/-- Claim C5 witness: the normalization theorem at a concrete insert of a
blank body and blank title: the stored item keeps the blank title but its
body is absent. -/
theorem addContent_only_body_normalized_witness :
    (⟨1, "https://example.com/c".toList, some " ".toList, none, 100, none⟩ : ContentItem)
        ∈ ([] : List ContentItem)
    ∨ ((⟨1, "https://example.com/c".toList, some " ".toList, none, 100, none⟩
          : ContentItem).title = some " ".toList
       ∧ (⟨1, "https://example.com/c".toList, some " ".toList, none, 100, none⟩
          : ContentItem).body = none) := by
  have h := addContent_only_body_normalized
    ⟨"https://example.com/c".toList, some " ".toList, none, some "  ".toList⟩
    ⟨[], 1, 100⟩
    ⟨1, "https://example.com/c".toList, some " ".toList, none, 100, none⟩
    (by decide)
  rcases h with h | ⟨h1, _, _⟩
  · exact Or.inl h
  · exact Or.inr ⟨h1, rfl⟩

/-! ## Claim C6: listing order and pagination -/

/-- Claim C6: for every data set with distinct ids and every listing query,
the returned rows all satisfy the since/until bounds; they are ordered by
`created_at` descending with ties broken by `id` descending (sorted under
`listOrder`); and for any page size `L`, the ids of the page
`offset=0,limit=L` and of the page `offset=L,limit=L` are disjoint. -/
theorem listContent_order_and_pagination
    (items : List ContentItem) (p : ListContentParams)
    (hnd : (items.map (fun x => x.id)).Nodup) :
    (∀ x ∈ (listContent p items).items, matchesBounds p x = true)
    ∧ List.Sorted listOrder (listContent p items).items
    ∧ (∀ L i,
        i ∈ ((listContent ⟨some L, some 0, p.since, p.untilT⟩ items).items.map
          (fun x => x.id)) →
        i ∉ ((listContent ⟨some L, some L, p.since, p.untilT⟩ items).items.map
          (fun x => x.id))) := by
  refine ⟨?_, ?_, ?_⟩
  · intro x hx
    unfold listContent at hx
    dsimp only at hx
    have hx' : x ∈ List.insertionSort listOrder (items.filter (matchesBounds p)) :=
      List.drop_subset _ _ (List.take_subset _ _ hx)
    rw [List.mem_insertionSort] at hx'
    exact List.of_mem_filter hx'
  · unfold listContent
    dsimp only
    have hsorted := List.sorted_insertionSort listOrder
      (items.filter (matchesBounds p))
    have hsub : List.Sublist
        (((List.insertionSort listOrder (items.filter (matchesBounds p))).drop
          (p.offset.getD 0)).take (min (p.limit.getD 50) 1000))
        (List.insertionSort listOrder (items.filter (matchesBounds p))) :=
      (List.take_sublist _ _).trans (List.drop_sublist _ _)
    exact hsorted.sublist hsub
  · intro L i h1 h2
    have hS : ∀ q : ListContentParams, q.since = p.since → q.untilT = p.untilT →
        List.insertionSort listOrder (items.filter (matchesBounds q))
          = List.insertionSort listOrder (items.filter (matchesBounds p)) := by
      intro q hs hu
      have : matchesBounds q = matchesBounds p := by
        funext x
        unfold matchesBounds
        rw [hs, hu]
      rw [this]
    have hnodup : ((List.insertionSort listOrder
        (items.filter (matchesBounds p))).map (fun x => x.id)).Nodup := by
      have hperm := List.perm_insertionSort listOrder (items.filter (matchesBounds p))
      have hsubl : List.Sublist ((items.filter (matchesBounds p)).map (fun x => x.id))
          (items.map (fun x => x.id)) :=
        (List.filter_sublist items).map _
      exact ((hperm.map (fun x => x.id)).nodup_iff).mpr (hnd.sublist hsubl)
    set S := List.insertionSort listOrder (items.filter (matchesBounds p)) with hSdef
    have hdisj := List.disjoint_take_drop (l := S.map (fun x => x.id))
      (m := L) (n := L) hnodup le_rfl
    unfold listContent at h1 h2
    dsimp only at h1 h2
    simp only [Option.getD_some] at h1 h2
    rw [hS ⟨some L, some 0, p.since, p.untilT⟩ rfl rfl] at h1
    rw [hS ⟨some L, some L, p.since, p.untilT⟩ rfl rfl] at h2
    have h1' : i ∈ (S.map (fun x => x.id)).take L := by
      rw [List.drop_zero] at h1
      rw [List.map_take] at h1
      have : (S.map (fun x => x.id)).take (min L 1000)
          = ((S.map (fun x => x.id)).take L).take (min L 1000) := by
        rw [List.take_take]
        have : min (min L 1000) L = min L 1000 := by omega
        rw [this]
      rw [this] at h1
      exact List.take_subset _ _ h1
    have h2' : i ∈ (S.map (fun x => x.id)).drop L := by
      rw [List.map_take, List.map_drop] at h2
      exact List.take_subset _ _ h2
    exact hdisj h1' h2'

/-- Claim C6 witness: the ordering/pagination theorem applied to a concrete
three-row store with a `created_at` tie: the top row matches the (empty)
bounds, the full listing is sorted, and id 3, which is on the first page of
size 2, is absent from the second. -/
theorem listContent_order_and_pagination_witness :
    matchesBounds ⟨none, none, none, none⟩ ⟨3, "w".toList, none, none, 7, none⟩ = true
    ∧ List.Sorted listOrder (listContent ⟨none, none, none, none⟩
        [⟨1, "u".toList, none, none, 5, none⟩,
         ⟨2, "v".toList, none, none, 5, none⟩,
         ⟨3, "w".toList, none, none, 7, none⟩]).items
    ∧ ((3 : Int) ∉ ((listContent ⟨some 2, some 2, none, none⟩
          [⟨1, "u".toList, none, none, 5, none⟩,
           ⟨2, "v".toList, none, none, 5, none⟩,
           ⟨3, "w".toList, none, none, 7, none⟩]).items.map (fun x => x.id))) := by
  have h := listContent_order_and_pagination
    [⟨1, "u".toList, none, none, 5, none⟩,
     ⟨2, "v".toList, none, none, 5, none⟩,
     ⟨3, "w".toList, none, none, 7, none⟩]
    ⟨none, none, none, none⟩ (by decide)
  refine ⟨?_, h.2.1, ?_⟩
  · exact h.1 ⟨3, "w".toList, none, none, 7, none⟩ (by decide)
  · exact h.2.2 2 3 (by decide)

/-! ## Claim C7: total, default limit, clamp, zero rejection -/

/-- Claim C7: a supplied `limit` of 0 is rejected as a `BadRequest`
validation failure; on success the reported `total` is the number of items
matching the since/until filter before offset/limit are applied, so two
queries differing only in offset/limit report the same total; and the
number of returned rows never exceeds the effective limit
`limit.unwrap_or(50).min(1000)`. -/
theorem list_content_total_and_limit (items : List ContentItem)
    (q q' : ListContentQuery) :
    (q.limit = some 0 →
      list_content q items
        = .error (.badRequest "Limit must be greater than 0".toList))
    ∧ (∀ r, list_content q items = .ok r →
        r.total = (items.filter
          (matchesBounds ⟨q.limit, q.offset, q.since, q.untilT⟩)).length
        ∧ r.items.length ≤ min (q.limit.getD 50) 1000)
    ∧ (∀ r r', list_content q items = .ok r → list_content q' items = .ok r' →
        q.since = q'.since → q.untilT = q'.untilT → r.total = r'.total) := by
  have hok : ∀ (qq : ListContentQuery) r, list_content qq items = .ok r →
      r.total = (items.filter
        (matchesBounds ⟨qq.limit, qq.offset, qq.since, qq.untilT⟩)).length
      ∧ r.items.length ≤ min (qq.limit.getD 50) 1000 := by
    intro qq r hr
    unfold list_content at hr
    by_cases hz : qq.limit = some 0
    · rw [if_pos hz] at hr
      exact absurd hr (by simp)
    · rw [if_neg hz] at hr
      dsimp only at hr
      obtain rfl := Except.ok.inj hr
      constructor
      · rfl
      · unfold listContent
        dsimp only
        rw [List.length_map, List.length_take]
        omega
  refine ⟨?_, fun r hr => hok q r hr, ?_⟩
  · intro hz
    unfold list_content
    rw [if_pos hz]
  · intro r r' hr hr' hs hu
    rw [(hok q r hr).1, (hok q' r' hr').1]
    have : matchesBounds ⟨q.limit, q.offset, q.since, q.untilT⟩
        = matchesBounds ⟨q'.limit, q'.offset, q'.since, q'.untilT⟩ := by
      funext x
      unfold matchesBounds
      dsimp only
      rw [hs, hu]
    rw [this]

/-- Claim C7 witness: the total/limit theorem applied to a concrete one-row
store: a supplied limit of 0 is rejected, and two queries differing only in
offset report the same total. -/
theorem list_content_total_and_limit_witness :
    list_content ⟨some 0, none, none, none⟩ [⟨1, "u".toList, none, none, 5, none⟩]
        = .error (.badRequest "Limit must be greater than 0".toList)
    ∧ (⟨[⟨1, "u".toList, none, none, 5⟩], 1, 2⟩ : ListContentResponse).total
        = (⟨[], 1, 5⟩ : ListContentResponse).total := by
  refine ⟨?_, ?_⟩
  · exact (list_content_total_and_limit [⟨1, "u".toList, none, none, 5, none⟩]
      ⟨some 0, none, none, none⟩ ⟨some 5, some 1, none, none⟩).1 rfl
  · exact (list_content_total_and_limit [⟨1, "u".toList, none, none, 5, none⟩]
      ⟨some 2, none, none, none⟩ ⟨some 5, some 1, none, none⟩).2.2
      ⟨[⟨1, "u".toList, none, none, 5⟩], 1, 2⟩ ⟨[], 1, 5⟩
      (by decide) (by decide) rfl rfl

/-! ## Claim C10: the reported limit is the unclamped client value -/

/-- Claim C10: every successful listing response reports `limit` as the
client-supplied value unmodified (50 when absent), without the repository's
1000 clamp; hence for any supplied limit above 1000 the reported limit
strictly exceeds the number of rows the response can contain. -/
theorem list_content_reports_unclamped_limit (items : List ContentItem)
    (q : ListContentQuery) :
    (∀ r, list_content q items = .ok r → r.limit = q.limit.getD 50)
    ∧ (∀ r l, q.limit = some l → list_content q items = .ok r → 1000 < l →
        r.items.length < r.limit) := by
  have hok : ∀ r, list_content q items = .ok r →
      r.limit = q.limit.getD 50 ∧ r.items.length ≤ min (q.limit.getD 50) 1000 := by
    intro r hr
    unfold list_content at hr
    by_cases hz : q.limit = some 0
    · rw [if_pos hz] at hr
      exact absurd hr (by simp)
    · rw [if_neg hz] at hr
      dsimp only at hr
      obtain rfl := Except.ok.inj hr
      refine ⟨rfl, ?_⟩
      unfold listContent
      dsimp only
      rw [List.length_map, List.length_take]
      omega
  refine ⟨fun r hr => (hok r hr).1, ?_⟩
  intro r l hl hr hgt
  have h := hok r hr
  rw [h.1, hl]
  simp only [Option.getD_some]
  have := h.2
  rw [hl] at this
  simp only [Option.getD_some] at this
  omega

/-- Claim C10 witness: a successful listing with `limit=2000` reports
`limit = 2000` although at most 1000 rows could ever be returned. -/
theorem list_content_reports_unclamped_limit_witness :
    (⟨[⟨1, "u".toList, none, none, 5⟩], 1, 2000⟩ : ListContentResponse).limit = 2000
    ∧ (⟨[⟨1, "u".toList, none, none, 5⟩], 1, 2000⟩ : ListContentResponse).items.length
        < (⟨[⟨1, "u".toList, none, none, 5⟩], 1, 2000⟩ : ListContentResponse).limit := by
  have h := list_content_reports_unclamped_limit
    [⟨1, "u".toList, none, none, 5, none⟩] ⟨some 2000, none, none, none⟩
  refine ⟨?_, ?_⟩
  · exact h.1 ⟨[⟨1, "u".toList, none, none, 5⟩], 1, 2000⟩ (by decide)
  · exact h.2 ⟨[⟨1, "u".toList, none, none, 5⟩], 1, 2000⟩ 2000 rfl (by decide) (by omega)

/-! ## Claim C3: the in-flight counter across settle/drop -/

/-- Claim C3 evaluated at the failing input: an accepted request whose
future is dropped before completion never decrements `inFlight`.
After the trace `arrive 0; shutdown; drop 0`, every request has settled
(`pending = []`, the sole request is in `droppedR`) yet `inFlight` is still
1 — `GracefulShutdownFuture` has no `Drop` implementation, so the
decrement in `poll` is the only one and it never runs for a dropped
future. -/
theorem coordRun_dropped_future_leaks :
    coordRun [.arrive 0, .signalShutdown, .dropFut 0]
      = some ⟨true, 1, [], [0], [], [], [0]⟩
    ∧ (⟨true, 1, [], [0], [], [], [0]⟩ : CoordState).pending = []
    ∧ (⟨true, 1, [], [0], [], [], [0]⟩ : CoordState).inFlight = 1 := by
  refine ⟨by decide, rfl, rfl⟩

/-! ## Claim C9: the drained notification -/

/-- Claim C9 (with `ShutdownState::completed` modelled from the spec as the
condition `drained` = `shuttingDown ∧ inFlight = 0`): along any well-formed
coordinator run, (1) if shutdown is signalled while `inFlight` is 0,
`drained` holds immediately afterwards; (2) `drained` is absorbing, so the
notification can fire at most once; and (3) the transition into `drained`
happens exactly when a pending request is polled to completion taking
`inFlight` from 1 to 0 under `shuttingDown`, or when the shutdown signal
arrives with `inFlight` already 0. -/
theorem drained_notification_spec (tr : List ReqEvent) (s : CoordState)
    (hrun : coordRun tr = some s) :
    (s.inFlight = 0 → ∀ s', coordStep s .signalShutdown = some s' → drained s')
    ∧ (drained s → ∀ e s', coordStep s e = some s' → drained s')
    ∧ (∀ e s', coordStep s e = some s' → ¬ drained s → drained s' →
        ((∃ r, e = .pollReady r) ∧ s.shuttingDown = true ∧ s.inFlight = 1)
        ∨ (e = .signalShutdown ∧ s.inFlight = 0)) := by
  have hinv := coordRun_inv hrun
  unfold coordInv at hinv
  refine ⟨?_, ?_, ?_⟩
  · intro h0 s' hs'
    obtain rfl := Option.some.inj hs'
    exact ⟨rfl, h0⟩
  · rintro ⟨hsd, h0⟩ e s' hs'
    have hpend : s.pending = [] := by
      rw [h0] at hinv
      have hlen : s.pending.length = 0 := by omega
      exact List.length_eq_zero.mp hlen
    cases e with
    | arrive r =>
      simp only [coordStep] at hs'
      by_cases ha : r ∈ s.arrivedR
      · rw [if_pos ha] at hs'
        exact absurd hs' (by simp)
      · rw [if_neg ha, if_pos hsd] at hs'
        obtain rfl := Option.some.inj hs'
        exact ⟨hsd, h0⟩
    | pollReady r =>
      simp only [coordStep] at hs'
      rw [if_neg (by rw [hpend]; simp)] at hs'
      exact absurd hs' (by simp)
    | dropFut r =>
      simp only [coordStep] at hs'
      rw [if_neg (by rw [hpend]; simp)] at hs'
      exact absurd hs' (by simp)
    | signalShutdown =>
      obtain rfl := Option.some.inj hs'
      exact ⟨rfl, h0⟩
  · intro e s' hs' hnd hd'
    cases e with
    | arrive r =>
      simp only [coordStep] at hs'
      by_cases ha : r ∈ s.arrivedR
      · rw [if_pos ha] at hs'
        exact absurd hs' (by simp)
      · rw [if_neg ha] at hs'
        by_cases hsd : s.shuttingDown = true
        · rw [if_pos hsd] at hs'
          obtain rfl := Option.some.inj hs'
          exact absurd ⟨hsd, hd'.2⟩ hnd
        · rw [if_neg hsd] at hs'
          obtain rfl := Option.some.inj hs'
          exact absurd hd'.1 (by simpa using hsd)
    | pollReady r =>
      simp only [coordStep] at hs'
      by_cases hm : r ∈ s.pending
      · rw [if_pos hm] at hs'
        obtain rfl := Option.some.inj hs'
        left
        refine ⟨⟨r, rfl⟩, hd'.1, ?_⟩
        have hlen : 1 ≤ s.pending.length := List.length_pos.mpr
          (fun h => by rw [h] at hm; simp at hm)
        have h2 : s.inFlight - 1 = 0 := hd'.2
        omega
      · rw [if_neg hm] at hs'
        exact absurd hs' (by simp)
    | dropFut r =>
      simp only [coordStep] at hs'
      by_cases hm : r ∈ s.pending
      · rw [if_pos hm] at hs'
        obtain rfl := Option.some.inj hs'
        exact absurd ⟨hd'.1, hd'.2⟩ hnd
      · rw [if_neg hm] at hs'
        exact absurd hs' (by simp)
    | signalShutdown =>
      obtain rfl := Option.some.inj hs'
      exact Or.inr ⟨rfl, hd'.2⟩

/-- Claim C9 witness: after the run `arrive 0; pollReady 0`, signalling
shutdown with `inFlight = 0` makes `drained` hold immediately. -/
theorem drained_notification_spec_witness :
    drained ⟨true, 0, [], [], [0], [], [0]⟩ := by
  have h := drained_notification_spec [.arrive 0, .pollReady 0]
    ⟨false, 0, [], [], [0], [], [0]⟩ (by decide)
  exact h.1 rfl ⟨true, 0, [], [], [0], [], [0]⟩ (by decide)

end Lectara
